import Mathlib

/-!
# Verification of the step-perf streaming-operator library

This file gives a shallow embedding of the stop-token stream protocol and
the operator actors of the step-perf simulator (`src/primitives/elem.rs`,
`src/primitives/buffer.rs`, `src/operator/{promote,flatten,map,map_accum,
streamify,bufferize,eager_merge}.rs`, `src/memory/offchip_load.rs`,
`src/utils/calculation.rs`), and proves (or refutes) the frozen claims
about them.

Streams are modelled as lists of elements; an actor that dequeues one
element, transforms it and enqueues the result is modelled as a function on
lists.  Stop levels (`StopType = u32` in the source) are modelled as `Nat`:
all stop arithmetic in the source operates far below `2^32`, so wrap-around
is never reachable on the protocol's domain.  Timing is modelled with an
explicit clock value threaded through the step functions; channel
back-pressure waits are outside the claims considered here and are not
modelled.  Rust panics and fallible operations are modelled with
`Option`/`Except`.
-/

namespace StepPerf

/-- `Elem` from `src/primitives/elem.rs`: channel payloads are a value or a
value together with the stop level it closes. -/
inductive Elem (α : Type) where
  | val : α → Elem α
  | valStop : α → Nat → Elem α
deriving DecidableEq, Repr

/-- The payload carried by an element. -/
def elemVal {α : Type} : Elem α → α
  | .val x => x
  | .valStop x _ => x

/-- Build an element from a payload and a stop level, using `Val` for
level 0 (level 0 on a channel is represented as `Val`). -/
def mkElem {α : Type} (x : α) (l : Nat) : Elem α :=
  if l = 0 then .val x else .valStop x l

/-- The stop level of an element, `none` for a plain `Val`. -/
def stopLevel {α : Type} : Elem α → Option Nat
  | .val _ => none
  | .valStop _ s => some s

/-! ## Promote (`src/operator/promote.rs`) -/

/-- One step of `Promote::run` (`src/operator/promote.rs`, lines 36-71): a
`Val` becomes `ValStop(_, 1)` when `promote_rank = 0`, otherwise it passes
through; a `ValStop(_, s)` becomes `ValStop(_, s)` when `promote_rank > s`
and `ValStop(_, s+1)` otherwise. -/
def promoteElem {α : Type} (promote_rank : Nat) : Elem α → Elem α
  | .val x => if promote_rank = 0 then .valStop x 1 else .val x
  | .valStop x s => .valStop x (if promote_rank > s then s else s + 1)

/-- `Promote::run` over a whole input stream. -/
def promoteRun {α : Type} (promote_rank : Nat) (l : List (Elem α)) :
    List (Elem α) :=
  l.map (promoteElem promote_rank)

/-! ## Flatten (`src/operator/flatten.rs`) -/

/-- The `new_rank` computation of `Flatten::run` (`src/operator/flatten.rs`,
lines 53-59). -/
def flattenRank (min_rank max_rank s : Nat) : Nat :=
  if s ≤ min_rank then s
  else if min_rank < s ∧ s ≤ max_rank then min_rank
  else s - (max_rank - min_rank)

/-- One step of `Flatten::run` (`src/operator/flatten.rs`, lines 40-75). -/
def flattenElem {α : Type} (min_rank max_rank : Nat) : Elem α → Elem α
  | .val x => .val x
  | .valStop x s =>
      if flattenRank min_rank max_rank s = 0 then .val x
      else .valStop x (flattenRank min_rank max_rank s)

/-- `Flatten::run` over a whole input stream. -/
def flattenRun {α : Type} (min_rank max_rank : Nat)
    (l : List (Elem α)) : List (Elem α) :=
  l.map (flattenElem min_rank max_rank)

/-! ## Tiles and roofline timing (`src/primitives/tile.rs`,
`src/utils/calculation.rs`, `src/memory/mod.rs`) -/

/-- `PMU_BW` from `src/memory/mod.rs`: scratchpad bandwidth in bytes per
cycle. -/
def PMU_BW : Nat := 64

/-- `div_ceil` from `src/utils/calculation.rs`: ceiling division (the
source asserts `b ≠ 0`; every call site passes `PMU_BW = 64`). -/
def div_ceil (a b : Nat) : Nat :=
  if a % b = 0 then a / b else a / b + 1

/-- `Tile` from `src/primitives/tile.rs`, restricted to the fields the
timing and stop-level logic reads (`shape`, `bytes_per_elem`,
`read_from_mu`); the optional functional array and the padding offset are
not consulted by the claims under study. -/
structure Tile where
  shape : List Nat
  bytes_per_elem : Nat
  read_from_mu : Bool
deriving DecidableEq, Repr

/-- `Tile::size_in_bytes` (`src/primitives/tile.rs`, lines 25-28):
`bytes_per_elem * product of shape`. -/
def Tile.size_in_bytes (t : Tile) : Nat :=
  t.bytes_per_elem * t.shape.foldr (· * ·) 1

/-! ## BinaryMap (`src/operator/map.rs`) -/

/-- The input-matching step of `BinaryMap::run` (`src/operator/map.rs`,
lines 97-112): paired `Val`s carry no stop level, paired `ValStop`s must
agree on the level, and any other combination panics (modelled as
`Except.error`). -/
def binaryMapMatch (data1_enum data2_enum : Elem Tile) :
    Except String (Tile × Tile × Option Nat) :=
  match data1_enum, data2_enum with
  | .val data1, .val data2 => .ok (data1, data2, none)
  | .valStop data1 lev1, .valStop data2 lev2 =>
      if lev1 ≠ lev2 then
        .error "The two input streams' shape don't match!"
      else .ok (data1, data2, some lev1)
  | _, _ => .error "The two input streams' shape don't match!"

/-- The load-cycle accumulation of `BinaryMap::run` (`src/operator/map.rs`,
lines 126-132). -/
def binaryMapLoadCycle (tile1 tile2 : Tile) : Nat :=
  let load_cycle := 0
  let load_cycle :=
    if tile1.read_from_mu then
      load_cycle + div_ceil tile1.size_in_bytes PMU_BW
    else load_cycle
  if tile2.read_from_mu then load_cycle + div_ceil tile2.size_in_bytes PMU_BW
  else load_cycle

/-- One invocation of `BinaryMap::run` (`src/operator/map.rs`, lines
82-173) on a matched pair of tiles, starting from local clock `time`:
returns the new clock and the emitted element.  `func` models the `f`
closure returning `(cycles, out_tile)`. -/
def binaryMapInvoke (func : Tile → Tile → Nat → Bool → Nat × Tile)
    (compute_bw : Nat) (write_back_mu : Bool) (time : Nat)
    (in1 in2 : Elem Tile) : Except String (Nat × Elem Tile) := do
  let (tile1, tile2, stop_lev) ← binaryMapMatch in1 in2
  let load_cycle := binaryMapLoadCycle tile1 tile2
  let (comp_cycles, out_tile) := func tile1 tile2 compute_bw write_back_mu
  let store_cycles :=
    if write_back_mu then div_ceil out_tile.size_in_bytes PMU_BW else 0
  let roofline_cycles :=
    ([load_cycle, comp_cycles, store_cycles].max?).getD 0
  let time := time + roofline_cycles
  let data : Elem Tile :=
    match stop_lev with
    | some level => .valStop out_tile level
    | none => .val out_tile
  return (time, data)

/-! ## BinaryMapAccum (`src/operator/map_accum.rs`) -/

/-- The mutable state of `BinaryMapAccum::run`: the accumulator tile and
the actor's local clock. -/
structure MapAccumState where
  acc : Tile
  time : Nat
deriving DecidableEq, Repr

/-- `BinaryMapAccum::process_map_accum` (`src/operator/map_accum.rs`,
lines 69-105): update the accumulator with `f(in1, in2, acc)` and charge
`max(load, compute)` cycles; nothing is emitted. -/
def processMapAccum (func : Tile → Tile → Tile → Nat → Bool → Nat × Tile)
    (compute_bw : Nat) (write_back_mu : Bool) (s : MapAccumState)
    (data1 data2 : Tile) : MapAccumState :=
  let load_cycle := binaryMapLoadCycle data1 data2
  let (comp_cycles, out_tile) :=
    func data1 data2 s.acc compute_bw write_back_mu
  let roofline_cycles := ([load_cycle, comp_cycles].max?).getD 0
  { acc := out_tile, time := s.time + roofline_cycles }

/-- `BinaryMapAccum::process_map_accum_init` (`src/operator/map_accum.rs`,
lines 107-161): compute `f(in1, in2, acc)`, reset the accumulator to
`init_accum()` (modelled as the constant tile `init_accum`), charge
`max(load, compute, store)` — the store cost reads the size of the freshly
reset accumulator — and return the computed tile for emission. -/
def processMapAccumInit (func : Tile → Tile → Tile → Nat → Bool → Nat × Tile)
    (init_accum : Tile) (compute_bw : Nat) (write_back_mu : Bool)
    (s : MapAccumState) (data1 data2 : Tile) : MapAccumState × Tile :=
  let load_cycle := binaryMapLoadCycle data1 data2
  let (comp_cycles, out_tile) :=
    func data1 data2 s.acc compute_bw write_back_mu
  let accumulator := init_accum
  let store_cycles :=
    if write_back_mu then div_ceil accumulator.size_in_bytes PMU_BW else 0
  let roofline_cycles :=
    ([load_cycle, comp_cycles, store_cycles].max?).getD 0
  ({ acc := accumulator, time := s.time + roofline_cycles }, out_tile)

/-- One step of `BinaryMapAccum::run` (`src/operator/map_accum.rs`, lines
173-248) on a pair of input elements: mismatched stop levels panic
(`Except.error`); levels absent or `< rank` fold into the accumulator with
no emission; level `= rank` emits the result as `Val` and resets; level
`> rank` emits as `ValStop(_, level - rank)` and resets. -/
def mapAccumStep (func : Tile → Tile → Tile → Nat → Bool → Nat × Tile)
    (init_accum : Tile) (rank : Nat) (compute_bw : Nat)
    (write_back_mu : Bool) (s : MapAccumState) :
    Elem Tile → Elem Tile →
      Except String (MapAccumState × Option (Elem Tile))
  | .val data1, .val data2 =>
      .ok (processMapAccum func compute_bw write_back_mu s data1 data2, none)
  | .valStop data1 lev1, .valStop data2 lev2 =>
      if lev1 ≠ lev2 then .error "The two input streams' shape don't match!"
      else if lev1 < rank then
        .ok (processMapAccum func compute_bw write_back_mu s data1 data2,
          none)
      else if lev1 = rank then
        let (s', out_tile) :=
          processMapAccumInit func init_accum compute_bw write_back_mu s
            data1 data2
        .ok (s', some (.val out_tile))
      else
        let (s', out_tile) :=
          processMapAccumInit func init_accum compute_bw write_back_mu s
            data1 data2
        .ok (s', some (.valStop out_tile (lev1 - rank)))
  | _, _ => .error "The two input streams' shape don't match!"

/-! ## Buffers (`src/primitives/buffer.rs`) -/

/-- Product of a shape vector (`iter().product()`; empty product is 1). -/
def prodList (l : List Nat) : Nat := l.foldr (· * ·) 1

/-- `Buffer` from `src/primitives/buffer.rs`: a multidimensional dense
array, modelled as its shape together with its elements in row-major
order.  The `creation_time` field is excluded, exactly as the source's
`PartialEq` instance excludes it; no claim under study reads it. -/
structure Buffer (α : Type) where
  shape : List Nat
  data : List α
deriving DecidableEq, Repr

/-- The row-major multi-index enumeration of an `ndarray` of the given
shape, as produced by `indexed_iter` in `Buffer::to_elem_iter`. -/
def multiIndices : List Nat → List (List Nat)
  | [] => [[]]
  | d :: ds => (List.range d).flatMap (fun i => (multiIndices ds).map (i :: ·))

/-- `outermost_diff_index` (`src/primitives/buffer.rs`, lines 238-246):
the first position at which two index vectors differ.  The source panics
when they are identical; here `findIdx` returns the length instead, a case
never reached for distinct consecutive row-major indices. -/
def outermostDiffIndex (a b : List Nat) : Nat :=
  (a.zip b).findIdx (fun p => p.1 != p.2)

/-- The looping body of `Buffer::to_elem_iter` (`src/primitives/buffer.rs`,
lines 167-210) for arrays of at least two elements, written with one

element of look-ahead: the source's `flat_map` holds each element back one
step, emits the previous element with stop level
`ndim - outermost_diff_index - 1` (level 0 as `Val`), and emits the final
element with level `ndim` at the last step. -/
def toElemIterGo {α : Type} (ndim : Nat) :
    (List Nat × α) → List (List Nat × α) → List (Elem α)
  | (_, v), [] => [.valStop v ndim]
  | (ind, v), (ind2, v2) :: rest =>
      (if ndim - outermostDiffIndex ind ind2 - 1 = 0 then Elem.val v
       else .valStop v (ndim - outermostDiffIndex ind ind2 - 1)) ::
        toElemIterGo ndim (ind2, v2) rest

/-- `Buffer::to_elem_iter`: a single-element buffer yields
`[ValStop(x, 1)]` whatever its rank; larger buffers stream their elements
with boundary stop levels and a final level-`ndim` stop. -/
def Buffer.toElemIter {α : Type} (b : Buffer α) : List (Elem α) :=
  match (multiIndices b.shape).zip b.data with
  | [] => []
  | [(_, v)] => [.valStop v 1]
  | p :: rest => toElemIterGo b.shape.length p rest

/-! ## Buffer::from_stream (`src/primitives/buffer.rs`, lines 65-165) -/

/-- The failure modes of bufferization: `finished` and `incomplete` are
`BufferizeError::Finished/Incomplete`; `idxPanic` is the Rust panic from
indexing `shape_info` out of bounds, `shapePanic` the
`from_shape_vec` expect, and `rankPanic` the `assert!(rank > 0)`. -/
inductive FsErr where
  | finished
  | incomplete
  | idxPanic
  | shapePanic
  | rankPanic
deriving DecidableEq, Repr

/-- Successful result of one `Buffer::from_stream` call: the completed
buffer, an optional residual stop level (`BufferizeError::StopToken`, the
stop level carried past `rank`), and the unconsumed remainder of the
stream. -/
structure FsOk (α : Type) where
  buf : Buffer α
  residual : Option Nat
  rest : List (Elem α)
deriving DecidableEq, Repr

/-- `shape_info[i] += 1`, with the Rust out-of-bounds panic as `none`. -/
def listIncr (l : List Nat) (i : Nat) : Option (List Nat) :=
  if i < l.length then some (l.set i (l.getD i 0 + 1)) else none

/-- The dequeue loop of `Buffer::from_stream` (lines 87-140) together with
the terminal `from_shape_vec` (lines 152-164): state is the accumulated
`buffer`, the `shape_info` vector and the length of `tracked_shape_info`
(whose entries are only ever `true`, so only its length matters). -/
def fromStreamGo {α : Type} (rank : Nat) :
    List (Elem α) → List α → List Nat → Nat → Except FsErr (FsOk α)
  | [], buffer, _, _ =>
      if buffer.isEmpty then .error .finished else .error .incomplete
  | .val v :: rest, buffer, shape_info, tracked =>
      let shape_info :=
        if shape_info.length = 1 then
          shape_info.set 0 (shape_info.getD 0 0 + 1)
        else shape_info
      fromStreamGo rank rest (buffer ++ [v]) shape_info tracked
  | .valStop v st :: rest, buffer, shape_info, tracked =>
      let buffer := buffer ++ [v]
      if st = rank then
        match listIncr shape_info (rank - 1) with
        | none => .error .idxPanic
        | some si =>
            if prodList si.reverse = buffer.length then
              .ok ⟨⟨si.reverse, buffer⟩, none, rest⟩
            else .error .shapePanic
      else if rank < st then
        match listIncr shape_info (rank - 1) with
        | none => .error .idxPanic
        | some si =>
            if prodList si.reverse = buffer.length then
              .ok ⟨⟨si.reverse, buffer⟩, some (st - rank), rest⟩
            else .error .shapePanic
      else if shape_info.length = st then
        match listIncr shape_info (st - 1) with
        | none => .error .idxPanic
        | some si => fromStreamGo rank rest buffer (si ++ [1]) (tracked + 1)
      else if st < shape_info.length ∧ tracked ≤ st then
        match listIncr shape_info st with
        | none => .error .idxPanic
        | some si => fromStreamGo rank rest buffer si tracked
      else fromStreamGo rank rest buffer shape_info tracked

/-- `Buffer::from_stream` on a (remaining) input stream. -/
def Buffer.fromStream {α : Type} (rank : Nat) (stream : List (Elem α)) :
    Except FsErr (FsOk α) :=
  if rank = 0 then .error .rankPanic
  else fromStreamGo rank stream [] [0] 0

/-! ## Bufferize (`src/operator/bufferize.rs`) -/

/-- The loop of `Bufferize::run` (`src/operator/bufferize.rs`, lines
60-97), with fuel for termination: each round calls
`Buffer::from_stream`, emits `Val(buffer)` on success, `ValStop(buffer,
residual)` on `StopToken`, stops cleanly on `Finished` and panics on
`Incomplete`.  Every successful round consumes at least one element, so
`stream.length + 1` rounds always suffice. -/
def bufferizeGo {α : Type} (rank : Nat) :
    Nat → List (Elem α) → Except FsErr (List (Elem (Buffer α)))
  | 0, _ => .error .incomplete
  | fuel + 1, stream =>
      match Buffer.fromStream rank stream with
      | .error .finished => .ok []
      | .error e => .error e
      | .ok ⟨buffer, none, rest⟩ =>
          match bufferizeGo rank fuel rest with
          | .ok tl => .ok (.val buffer :: tl)
          | .error e => .error e
      | .ok ⟨buffer, some residual, rest⟩ =>
          match bufferizeGo rank fuel rest with
          | .ok tl => .ok (.valStop buffer residual :: tl)
          | .error e => .error e

/-- `Bufferize::run` on a whole input stream. -/
def bufferizeRun {α : Type} (rank : Nat) (stream : List (Elem α)) :
    Except FsErr (List (Elem (Buffer α))) :=
  bufferizeGo rank (stream.length + 1) stream

/-! ## Streamify (`src/operator/streamify.rs`) -/

/-- One iteration of `Streamify::run` (`src/operator/streamify.rs`, lines
60-244) on a dequeued buffer element.  Empty `repeat_factor` passes the
buffer's element stream straight through (adding `outer_stop_lev` at
rank-level stops when the buffer itself carried a stop).  A non-empty
`repeat_factor` is traversed reversed-and-enumerated, replaying the buffer
`rf` times per entry and raising the level of rank-level stops on each
entry's last replay. -/
def streamifyElem {α : Type} (repeat_factor : List Nat) (rank : Nat) :
    Elem (Buffer α) → List (Elem α)
  | .val buff =>
      if repeat_factor.isEmpty then buff.toElemIter
      else
        (repeat_factor.reverse.enum).flatMap (fun (i, rf) =>
          (List.range rf).flatMap (fun repeat_i =>
            buff.toElemIter.map (fun e =>
              match e with
              | .val tile => .val tile
              | .valStop tile stop_lev =>
                  .valStop tile
                    (if stop_lev = rank ∧ repeat_i = rf - 1 then
                        stop_lev + 1 + i
                      else stop_lev))))
  | .valStop buff outer_stop_lev =>
      if repeat_factor.isEmpty then
        buff.toElemIter.map (fun e =>
          match e with
          | .val tile => .val tile
          | .valStop tile stop_lev =>
              .valStop tile
                (if stop_lev = rank then stop_lev + outer_stop_lev
                 else stop_lev))
      else
        (repeat_factor.reverse.enum).flatMap (fun (i, rf) =>
          (List.range rf).flatMap (fun repeat_i =>
            buff.toElemIter.map (fun e =>
              match e with
              | .val tile => .val tile
              | .valStop tile stop_lev =>
                  .valStop tile
                    (if stop_lev = rank ∧ repeat_i = rf - 1 then
                        stop_lev + outer_stop_lev + 1 + i
                      else stop_lev))))

/-- `Streamify::run` over a whole stream of buffer elements. -/
def streamifyRun {α : Type} (repeat_factor : List Nat) (rank : Nat)
    (bufs : List (Elem (Buffer α))) : List (Elem α) :=
  bufs.flatMap (streamifyElem repeat_factor rank)

/-! ## Canonical rank-`R` streams (specification side)

These definitions formalize §4.2 of the specification (the stop-token
protocol): the canonical flat stream of a dense rank-`R` array.  They are
the "well-formed input" side of the Bufferize/Streamify round-trip claim
and are *not* translated from the source. -/

/-- Split a list into `k` consecutive chunks of `p` elements each. -/
def chunksN {α : Type} : Nat → Nat → List α → List (List α)
  | 0, _, _ => []
  | k + 1, p, data => data.take p :: chunksN k p (data.drop p)

/-- Concatenate blocks, generating every block with `g` except the last,
which uses `gLast`. -/
def joinBlocks {α β : Type} (g gLast : List α → List β) :
    List (List α) → List β
  | [] => []
  | [c] => gLast c
  | c :: c2 :: cs => g c ++ joinBlocks g gLast (c2 :: cs)

/-- The canonical stop-token stream of a dense array of shape `s` whose
overall last element carries stop level `fin` (interior boundaries carry
the number of dimensions they close). -/
def canonG {α : Type} : List Nat → List α → Nat → List (Elem α)
  | [], data, fin => data.map (fun x => mkElem x fin)
  | k :: s, data, fin =>
      joinBlocks (fun c => canonG s c s.length) (fun c => canonG s c fin)
        (chunksN k (prodList s) data)

/-- The canonical rank-`|s|` stream of a dense array of shape `s`: the
last element closes every dimension. -/
def canonStream {α : Type} (s : List Nat) (data : List α) : List (Elem α) :=
  canonG s data s.length

/-- Shapes on which bufferization reconstructs the tensor: at least one
dimension, every dimension positive, and every dimension except the
innermost at least 2 (a size-1 outer dimension makes a high-level stop
token arrive before `shape_info` has grown to its index, which the
`from_stream` state machine cannot represent). -/
def validShape : List Nat → Bool
  | [] => false
  | [n] => decide (1 ≤ n)
  | k :: s => decide (2 ≤ k) && validShape s

/-- Replace the stop level of the last element of a stream. -/
def setFinal {α : Type} (fin : Nat) : List (Elem α) → List (Elem α)
  | [] => []
  | [e] => [mkElem (elemVal e) fin]
  | e :: e2 :: rest => e :: setFinal fin (e2 :: rest)

/-- The indexed element pairs of consecutive outer blocks: block `c`
receives outer index `i`, the next block `i + 1`, and so on.  This is the
shape of `(multiIndices (k :: s2)).zip data` split along the outermost
dimension. -/
def blockPairsFrom {α : Type} (s2 : List Nat) : Nat → List (List α) →
    List (List Nat × α)
  | _, [] => []
  | i, c :: cs =>
      ((multiIndices s2).zip c).map (fun q => (i :: q.1, q.2)) ++
        blockPairsFrom s2 (i + 1) cs

/-- A well-formed rank-`R` group descriptor `(shape, data, res)`: a valid
shape of rank exactly `R` with matching dense data; `res` is the number of
extra dimensions the group's final stop token closes beyond `R`. -/
def goodGroup {α : Type} (R : Nat) (g : List Nat × List α × Nat) : Bool :=
  validShape g.1 && decide (g.1.length = R) &&
    decide (g.2.1.length = prodList g.1)

/-- The rank-`R` stream determined by a list of group descriptors: each
group contributes its canonical stream, ending at level `R + res`. -/
def canonGroups {α : Type} (R : Nat)
    (gs : List (List Nat × List α × Nat)) : List (Elem α) :=
  gs.flatMap (fun g => canonG g.1 g.2.1 (R + g.2.2))

/-- The buffer elements `Bufferize(rank = R)` produces from the groups: a
plain `Val` for a group closing exactly at `R`, a `ValStop` carrying the
residual otherwise. -/
def bufferElems {α : Type} (gs : List (List Nat × List α × Nat)) :
    List (Elem (Buffer α)) :=
  gs.map (fun g =>
    if g.2.2 = 0 then Elem.val ⟨g.1, g.2.1⟩
    else Elem.valStop ⟨g.1, g.2.1⟩ g.2.2)

/-! ## EagerMerge (`src/operator/eager_merge.rs`)

Input streams are modelled as lists of timestamped elements `(t, e)`: the
element arrives at the receiver at time `t`, so a `peek` at local time `T`
returns `Something` when the head's time is at most `T`, `Nothing` when
the head is still in the future, and `Closed` when the list is empty. -/

/-- `flags[i] = true`, as a function update (the Rust code uses
`Vec<bool>` indexed by input position). -/
def updT (f : Nat → Bool) (i : Nat) : Nat → Bool :=
  fun j => if j = i then true else f j

/-- `vec.contains(&false)` for a length-`n` flag vector. -/
def anyFalse (n : Nat) (f : Nat → Bool) : Bool :=
  (List.range n).any (fun i => !(f i))

/-- The enumerated input streams, `self.in_streams.iter().enumerate()`. -/
def emEnum {α : Type} (streams : List (List (Nat × α))) :
    List (Nat × List (Nat × α)) :=
  (List.range streams.length).map (fun i => (i, streams.getD i []))

/-- One pass of the `for (i, stream)` loop inside
`EagerMerge::get_earliest_input_idx` (lines 55-79): streams already
peeked are skipped; an empty stream is marked peeked and closed; a head
that has arrived (`Something`) is recorded, replacing the candidate only
when strictly earlier; a future head (`Nothing`) is left for a later
pass. -/
def emPassGo {α : Type} (T : Nat) :
    List (Nat × List (Nat × α)) → (Nat → Bool) → (Nat → Bool) →
      Option (Nat × Nat) →
      ((Nat → Bool) × (Nat → Bool) × Option (Nat × Nat))
  | [], peeked, closed, earliest => (peeked, closed, earliest)
  | (i, s) :: rest, peeked, closed, earliest =>
      if peeked i then emPassGo T rest peeked closed earliest
      else
        match s with
        | [] => emPassGo T rest (updT peeked i) (updT closed i) earliest
        | (t, _) :: _ =>
            if t ≤ T then
              emPassGo T rest (updT peeked i) closed
                (match earliest with
                  | none => some (i, t)
                  | some (j, et) =>
                      if t < et then some (i, t) else some (j, et))
            else emPassGo T rest peeked closed earliest

/-- The outer `loop` of `get_earliest_input_idx` (lines 54-118), with
fuel: after each pass, if a candidate exists it is returned unless some
stream is still unpeeked and the candidate is in the future, in which
case the local clock advances one cycle and the loop re-peeks; with no
candidate the operator returns `None` once every stream is closed,
otherwise it advances and re-peeks.  The result carries the local time at
return together with the chosen index. -/
def getEarliestGo {α : Type} (streams : List (List (Nat × α))) :
    Nat → Nat → (Nat → Bool) → (Nat → Bool) → Option (Nat × Nat) →
      Option (Nat × Nat)
  | 0, _, _, _, _ => none
  | fuel + 1, T, peeked, closed, earliest =>
      match emPassGo T (emEnum streams) peeked closed earliest with
      | (peeked2, closed2, some (idx, et)) =>
          if anyFalse streams.length peeked2 ∧ T < et then
            getEarliestGo streams fuel (T + 1) peeked2 closed2
              (some (idx, et))
          else some (T, idx)
      | (peeked2, closed2, none) =>
          if anyFalse streams.length closed2 then
            getEarliestGo streams fuel (T + 1) peeked2 closed2 none
          else none

/-- `EagerMerge::get_earliest_input_idx`, started from the fresh state
(no stream peeked, no stream closed, no candidate). -/
def getEarliestInputIdx {α : Type} (streams : List (List (Nat × α)))
    (T0 fuel : Nat) : Option (Nat × Nat) :=
  getEarliestGo streams fuel T0 (fun _ => false) (fun _ => false) none

/-- The inner dequeue loop of `EagerMerge::run` (lines 152-189): values
are forwarded (one group per call when `input_rank = 0`); a stop token at
exactly `input_rank` ends the group; a higher stop token is the Rust
panic and a closed channel the `Err` return, both `none` here. -/
def drainGroup {α : Type} (input_rank : Nat) :
    List (Elem α) → Option (List (Elem α) × List (Elem α))
  | [] => none
  | .val x :: rest =>
      if input_rank = 0 then some ([Elem.val x], rest)
      else
        match drainGroup input_rank rest with
        | some (grp, rem) => some (Elem.val x :: grp, rem)
        | none => none
  | .valStop x s :: rest =>
      if s = input_rank then some ([Elem.valStop x s], rest)
      else if input_rank < s then none
      else
        match drainGroup input_rank rest with
        | some (grp, rem) => some (Elem.valStop x s :: grp, rem)
        | none => none

/-- One iteration of `EagerMerge::run` (lines 127-191): find the earliest
input, emit its index once on the selector stream, and drain one
`input_rank`-bounded group from that input to the output stream.  The
result is the local time of the selector emission, the emitted index and
the forwarded group. -/
def eagerMergeStep {α : Type} (streams : List (List (Nat × Elem α)))
    (input_rank : Nat) (T0 fuel : Nat) :
    Option (Nat × Nat × List (Elem α)) :=
  match getEarliestInputIdx streams T0 fuel with
  | none => none
  | some (T, idx) =>
      match drainGroup input_rank ((streams.getD idx []).map Prod.snd) with
      | some (grp, _) => some (T, idx, grp)
      | none => none

/-! ## OffChipLoad address generation (`src/memory/offchip_load.rs`) -/

/-- The flat-index decomposition loop of `OffChipLoad::generate_addr`
(lines 156-165): dimensions are processed from innermost to outermost,
taking `remaining % size` and then dividing; the argument list here is the
reversed shape. -/
def multiIndexGo : List Nat → Nat → List Nat
  | [], _ => []
  | d :: ds, remaining => remaining % d :: multiIndexGo ds (remaining / d)

/-- The multi-index of `flat_idx` over `out_shape_tiled`. -/
def multiIndexOf (shape : List Nat) (flat : Nat) : List Nat :=
  (multiIndexGo shape.reverse flat).reverse

/-- The source-tile-index computation of `OffChipLoad::generate_addr`
(lines 167-179): `Σ multi[d] * stride[d]`, reduced modulo the total source
tile count when that count is positive, 0 otherwise. -/
def srcTileIdx (out_shape stride tensor_shape : List Nat) (flat : Nat) :
    Nat :=
  let multi := multiIndexOf out_shape flat
  let tile_idx := (((multi.zip stride)).map (fun p => p.1 * p.2)).sum
  let original_size := prodList tensor_shape
  if 0 < original_size then tile_idx % original_size else 0

/-- The stop-token scan of `OffChipLoad::generate_addr` (lines 196-216):
dimensions are visited from innermost to outermost (`depth` is
`out_shape.len() - dim`, starting at 1) while the `all_inner_dims_at_end`
flag holds; a dimension of size one or at its last index records `depth`
as the candidate stop level, and the flag is narrowed to "this dimension
is at its last index". -/
def highestStopGo : List (Nat × Nat) → Nat → Bool → Option Nat → Option Nat
  | [], _, _, acc => acc
  | (sz, ix) :: rest, depth, allEnd, acc =>
      if allEnd then
        let acc' := if ix = sz - 1 ∨ sz = 1 then some depth else acc
        highestStopGo rest (depth + 1) (decide (ix = sz - 1)) acc'
      else highestStopGo rest (depth + 1) allEnd acc

/-- The stop level attached to the tile at multi-index `multi`. -/
def highestStopToken (out_shape multi : List Nat) : Option Nat :=
  highestStopGo ((out_shape.zip multi).reverse) 1 true none

/-- The specification's row-major decomposition of a flat index:
`multi[d] = (flat / stride-product of the inner dimensions) % shape[d]`. -/
def rowMajorIndex : List Nat → Nat → List Nat
  | [], _ => []
  | d :: ds, flat => (flat / prodList ds) % d :: rowMajorIndex ds flat

end StepPerf

namespace StepPerf

/-! ## Theorems for the rank rewriters -/

/-- C2, counterexample: the claim says `ValStop(x, s)` with `s ≤ p` is left
at level `s`.  At `p = 1`, `s = 1` the code produces `ValStop(x, 2)`, not
`ValStop(x, 1)` (its own test `promote_2d` confirms the shift at `s = p`). -/
theorem promote_shifts_at_equal_rank :
    promoteElem 1 (Elem.valStop (0 : Nat) 1) = Elem.valStop 0 2 ∧
      Elem.valStop (0 : Nat) 2 ≠ Elem.valStop 0 1 := by
  constructor
  · rfl
  · decide

/-- C2 (amended): `Promote(p)` maps `Val(x)` to `ValStop(x, 1)` when
`p = 0` and leaves it unchanged otherwise, maps `ValStop(x, s)` with
`s ≥ p` to `ValStop(x, s+1)`, and leaves `ValStop(x, s)` with `s < p`
at level `s`; element-wise on the whole stream. -/
theorem promote_characterization {α : Type} (p : Nat)
    (l : List (Elem α)) :
    promoteRun p l = l.map (fun e =>
      match e with
      | .val x => if p = 0 then .valStop x 1 else .val x
      | .valStop x s => if p ≤ s then .valStop x (s + 1) else .valStop x s) := by
  unfold promoteRun
  congr 1
  funext e
  cases e with
  | val x => rfl
  | valStop x s =>
      simp only [promoteElem]
      split_ifs <;> first | rfl | omega | (exfalso; omega) | (congr 1; omega)

/-- C4: `Flatten(min, max)` with `min < max` leaves `Val` elements
unchanged, leaves stop levels `s ≤ min` unchanged (level 0 shown as `Val`),
rewrites `min < s ≤ max` to level `min` (as `Val` when `min = 0`), and
decreases `s > max` by `max - min`; a `Val` is emitted exactly when the
rewritten level is 0. -/
theorem flatten_characterization {α : Type} (mn mx : Nat)
    (hlt : mn < mx) (x : α) (s : Nat) :
    (flattenElem mn mx (Elem.val x) = Elem.val x) ∧
    (s ≤ mn → flattenElem mn mx (Elem.valStop x s) = mkElem x s) ∧
    (mn < s → s ≤ mx → flattenElem mn mx (Elem.valStop x s) = mkElem x mn) ∧
    (mx < s →
      flattenElem mn mx (Elem.valStop x s) =
        Elem.valStop x (s - (mx - mn)) ∧ s - (mx - mn) ≠ 0) := by
  have hval : ∀ t : Nat,
      flattenElem mn mx (Elem.valStop x t) = mkElem x (flattenRank mn mx t) :=
    fun _ => rfl
  refine ⟨rfl, ?_, ?_, ?_⟩
  · intro hs
    have hr : flattenRank mn mx s = s := by
      unfold flattenRank; split_ifs <;> omega
    rw [hval, hr]
  · intro h1 h2
    have hr : flattenRank mn mx s = mn := by
      unfold flattenRank; split_ifs <;> omega
    rw [hval, hr]
  · intro h
    have hne : s - (mx - mn) ≠ 0 := by omega
    have hr : flattenRank mn mx s = s - (mx - mn) := by
      unfold flattenRank; split_ifs <;> omega
    refine ⟨?_, hne⟩
    rw [hval, hr, mkElem, if_neg hne]

/-- C4, witness. -/
theorem flatten_characterization_witness :
    (flattenElem 1 3 (Elem.val (0 : Nat)) = Elem.val 0) ∧
    ((1 : Nat) ≤ 1 →
      flattenElem 1 3 (Elem.valStop (0 : Nat) 1) = mkElem 0 1) ∧
    ((1 : Nat) < 1 → (1 : Nat) ≤ 3 →
      flattenElem 1 3 (Elem.valStop (0 : Nat) 1) = mkElem 0 1) ∧
    ((3 : Nat) < 1 →
      flattenElem 1 3 (Elem.valStop (0 : Nat) 1) =
        Elem.valStop 0 (1 - (3 - 1)) ∧ 1 - (3 - 1) ≠ 0) :=
  flatten_characterization 1 3 (by decide) (0 : Nat) 1

/-- An element's stop level, if any, is positive. -/
def posLevel {α : Type} : Elem α → Bool
  | .val _ => true
  | .valStop _ s => 1 ≤ s

/-- Every stop level occurring in the stream is positive (protocol
invariant: stop levels name a closed dimension, which is at least 1). -/
def PosLevels {α : Type} (l : List (Elem α)) : Prop :=
  ∀ e ∈ l, posLevel e = true

/-- C3: on streams whose stop levels are all positive, `Flatten(a, a+1)`
after `Promote(a)` (the valid pairs: flattening exactly the rank the
promote inserted) is the identity. -/
theorem flatten_promote_identity {α : Type} (a : Nat)
    (l : List (Elem α)) (hpos : PosLevels l) :
    flattenRun a (a + 1) (promoteRun a l) = l := by
  unfold flattenRun promoteRun
  rw [List.map_map]
  conv_rhs => rw [← List.map_id l]
  apply List.map_congr_left
  intro e he
  simp only [Function.comp_apply, id_eq]
  cases e with
  | val x =>
      by_cases h : a = 0
      · subst h
        have hr : flattenRank 0 (0 + 1) 1 = 0 := by decide
        simp [promoteElem, flattenElem, hr]
      · simp only [promoteElem, if_neg h, flattenElem]
  | valStop x s =>
      have hs : 1 ≤ s := by
        have := hpos _ he
        simpa [posLevel] using this
      by_cases h : a > s
      · have hr : flattenRank a (a + 1) s = s := by
          unfold flattenRank; split_ifs <;> omega
        simp only [promoteElem, if_pos h, flattenElem, hr]
        rw [if_neg (by omega)]
      · have hr : flattenRank a (a + 1) (s + 1) = s := by
          unfold flattenRank; split_ifs <;> omega
        simp only [promoteElem, if_neg h, flattenElem, hr]
        rw [if_neg (by omega)]

/-- C3, witness. -/
theorem flatten_promote_identity_witness :
    flattenRun 1 (1 + 1)
        (promoteRun 1 [Elem.val (5 : Nat), Elem.valStop 6 1, Elem.valStop 7 2]) =
      [Elem.val (5 : Nat), Elem.valStop 6 1, Elem.valStop 7 2] :=
  flatten_promote_identity 1 _ (by intro e he; fin_cases he <;> rfl)

/-! ## Theorems for BinaryMap -/

/-- Ceiling division as the specification writes it: `⌈a / b⌉`. -/
def ceilDiv (a b : Nat) : Nat := (a + b - 1) / b

theorem div_ceil_eq_ceilDiv (a : Nat) : div_ceil a 64 = ceilDiv a 64 := by
  unfold div_ceil ceilDiv
  split_ifs with h
  · omega
  · omega

/-- The specification's load cost: `⌈tile_bytes / PMU_BW⌉` summed over the
inputs with `read_from_mu = true`. -/
def specLoad (t1 t2 : Tile) : Nat :=
  (if t1.read_from_mu then ceilDiv t1.size_in_bytes 64 else 0) +
    (if t2.read_from_mu then ceilDiv t2.size_in_bytes 64 else 0)

/-- The specification's store cost: `⌈out_bytes / PMU_BW⌉` when
`write_back_mu`, else 0. -/
def specStore (out : Tile) (write_back_mu : Bool) : Nat :=
  if write_back_mu then ceilDiv out.size_in_bytes 64 else 0

theorem max?_three (a b c : Nat) :
    (([a, b, c]).max?).getD 0 = max a (max b c) := by
  simp [List.max?]
  omega

theorem max?_two (a b : Nat) : (([a, b]).max?).getD 0 = max a b := by
  simp [List.max?]

theorem binaryMapLoadCycle_eq_specLoad (t1 t2 : Tile) :
    binaryMapLoadCycle t1 t2 = specLoad t1 t2 := by
  cases h1 : t1.read_from_mu <;> cases h2 : t2.read_from_mu <;>
    simp [binaryMapLoadCycle, specLoad, PMU_BW, h1, h2, div_ceil_eq_ceilDiv]

theorem binaryMapInvoke_ok (func : Tile → Tile → Nat → Bool → Nat × Tile)
    (compute_bw : Nat) (write_back_mu : Bool) (time : Nat)
    (in1 in2 : Elem Tile) (tile1 tile2 : Tile) (stop_lev : Option Nat)
    (hmatch : binaryMapMatch in1 in2 = .ok (tile1, tile2, stop_lev)) :
    binaryMapInvoke func compute_bw write_back_mu time in1 in2 =
      .ok
        (time +
          max (specLoad tile1 tile2)
            (max (func tile1 tile2 compute_bw write_back_mu).1
              (specStore (func tile1 tile2 compute_bw write_back_mu).2
                write_back_mu)),
          match stop_lev with
          | some level =>
              .valStop (func tile1 tile2 compute_bw write_back_mu).2 level
          | none => .val (func tile1 tile2 compute_bw write_back_mu).2) := by
  have hload := binaryMapLoadCycle_eq_specLoad tile1 tile2
  rcases hf : func tile1 tile2 compute_bw write_back_mu with
    ⟨comp_cycles, out_tile⟩
  have hstore :
      (if write_back_mu then div_ceil out_tile.size_in_bytes PMU_BW else 0) =
        specStore out_tile write_back_mu := by
    unfold specStore PMU_BW
    rw [div_ceil_eq_ceilDiv]
  simp only [binaryMapInvoke, hmatch, bind, Except.bind, hf, max?_three, hload,
    hstore]
  cases stop_lev <;> rfl

/-- C5: one invocation of `BinaryMap` on a matched pair of tiles advances
the clock by exactly `max(load, compute, store)`, with `load` the sum of
`⌈bytes / 64⌉` over the inputs marked `read_from_mu`, `compute` the cycle
count returned by `f`, and `store` `⌈out_bytes / 64⌉` when `write_back_mu`
and 0 otherwise. -/
theorem binaryMap_roofline (func : Tile → Tile → Nat → Bool → Nat × Tile)
    (compute_bw : Nat) (write_back_mu : Bool) (time : Nat)
    (in1 in2 : Elem Tile) (tile1 tile2 : Tile) (stop_lev : Option Nat)
    (hmatch : binaryMapMatch in1 in2 = .ok (tile1, tile2, stop_lev)) :
    binaryMapInvoke func compute_bw write_back_mu time in1 in2 =
      .ok
        (time +
          max (specLoad tile1 tile2)
            (max (func tile1 tile2 compute_bw write_back_mu).1
              (specStore (func tile1 tile2 compute_bw write_back_mu).2
                write_back_mu)),
          match stop_lev with
          | some level =>
              .valStop (func tile1 tile2 compute_bw write_back_mu).2 level
          | none => .val (func tile1 tile2 compute_bw write_back_mu).2) :=
  binaryMapInvoke_ok func compute_bw write_back_mu time in1 in2 tile1 tile2
    stop_lev hmatch

/-- C5, witness. -/
theorem binaryMap_roofline_witness :
    binaryMapInvoke (fun _ _ _ _ => (7, Tile.mk [2, 2] 4 false)) 1024 true 5
        (Elem.val (Tile.mk [2, 2] 4 true)) (Elem.val (Tile.mk [1, 1] 4 true)) =
      .ok
        (5 +
          max (specLoad (Tile.mk [2, 2] 4 true) (Tile.mk [1, 1] 4 true))
            (max 7 (specStore (Tile.mk [2, 2] 4 false) true)),
          Elem.val (Tile.mk [2, 2] 4 false)) :=
  binaryMap_roofline (fun _ _ _ _ => (7, Tile.mk [2, 2] 4 false)) 1024 true 5
    (Elem.val (Tile.mk [2, 2] 4 true)) (Elem.val (Tile.mk [1, 1] 4 true))
    (Tile.mk [2, 2] 4 true) (Tile.mk [1, 1] 4 true) none rfl

/-- C7: `BinaryMap` emits an element carrying exactly the shared stop level
of its two inputs (none for paired `Val`s), and panics — modelled as an
error — whenever the two stop levels disagree or exactly one input carries
a stop marker. -/
theorem binaryMap_stop_semantics
    (func : Tile → Tile → Nat → Bool → Nat × Tile) (compute_bw : Nat)
    (write_back_mu : Bool) (time : Nat) (t1 t2 : Tile) (l l1 l2 : Nat)
    (hne : l1 ≠ l2) :
    (∃ time1,
      binaryMapInvoke func compute_bw write_back_mu time (.val t1) (.val t2) =
        .ok (time1, .val (func t1 t2 compute_bw write_back_mu).2)) ∧
    (∃ time2,
      binaryMapInvoke func compute_bw write_back_mu time (.valStop t1 l)
          (.valStop t2 l) =
        .ok (time2, .valStop (func t1 t2 compute_bw write_back_mu).2 l)) ∧
    (binaryMapInvoke func compute_bw write_back_mu time (.valStop t1 l1)
        (.valStop t2 l2) =
      .error "The two input streams' shape don't match!") ∧
    (binaryMapInvoke func compute_bw write_back_mu time (.val t1)
        (.valStop t2 l) =
      .error "The two input streams' shape don't match!") ∧
    (binaryMapInvoke func compute_bw write_back_mu time (.valStop t1 l)
        (.val t2) =
      .error "The two input streams' shape don't match!") := by
  refine ⟨⟨_, binaryMapInvoke_ok func compute_bw write_back_mu time (.val t1)
      (.val t2) t1 t2 none rfl⟩,
    ⟨_, binaryMapInvoke_ok func compute_bw write_back_mu time
      (.valStop t1 l) (.valStop t2 l) t1 t2 (some l)
      (by simp [binaryMapMatch])⟩, ?_, ?_, ?_⟩
  · simp [binaryMapInvoke, binaryMapMatch, hne, bind, Except.bind]
  · rfl
  · rfl

/-! ## Theorems for BinaryMapAccum -/

theorem processMapAccum_eq
    (func : Tile → Tile → Tile → Nat → Bool → Nat × Tile)
    (compute_bw : Nat) (write_back_mu : Bool) (s : MapAccumState)
    (d1 d2 : Tile) :
    processMapAccum func compute_bw write_back_mu s d1 d2 =
      { acc := (func d1 d2 s.acc compute_bw write_back_mu).2,
        time := s.time +
          max (specLoad d1 d2)
            (func d1 d2 s.acc compute_bw write_back_mu).1 } := by
  rcases hf : func d1 d2 s.acc compute_bw write_back_mu with ⟨c, o⟩
  simp [processMapAccum, hf, max?_two, binaryMapLoadCycle_eq_specLoad]

theorem processMapAccumInit_eq
    (func : Tile → Tile → Tile → Nat → Bool → Nat × Tile)
    (init_accum : Tile) (compute_bw : Nat) (write_back_mu : Bool)
    (s : MapAccumState) (d1 d2 : Tile) :
    processMapAccumInit func init_accum compute_bw write_back_mu s d1 d2 =
      ({ acc := init_accum,
         time := s.time +
           max (specLoad d1 d2)
             (max (func d1 d2 s.acc compute_bw write_back_mu).1
               (specStore init_accum write_back_mu)) },
        (func d1 d2 s.acc compute_bw write_back_mu).2) := by
  rcases hf : func d1 d2 s.acc compute_bw write_back_mu with ⟨c, o⟩
  simp [processMapAccumInit, hf, max?_three, binaryMapLoadCycle_eq_specLoad,
    specStore, PMU_BW, div_ceil_eq_ceilDiv]

/-- C6: on a pair of inputs whose stop level is absent or `< rank`,
`BinaryMapAccum` folds `acc ← f(in1, in2, acc)`, charges
`max(load, compute)` and emits nothing; on level `= rank` it computes,
emits the result as `Val(out)` and resets the accumulator to
`init_accum()`; on level `> rank` it computes, emits
`ValStop(out, level - rank)` and resets. -/
theorem mapAccum_characterization
    (func : Tile → Tile → Tile → Nat → Bool → Nat × Tile)
    (init_accum : Tile) (rank compute_bw : Nat) (write_back_mu : Bool)
    (s : MapAccumState) (d1 d2 : Tile) (levLow levHigh : Nat)
    (hlow : levLow < rank) (hhigh : rank < levHigh) :
    (mapAccumStep func init_accum rank compute_bw write_back_mu s
        (.val d1) (.val d2) =
      .ok ({ acc := (func d1 d2 s.acc compute_bw write_back_mu).2,
             time := s.time +
               max (specLoad d1 d2)
                 (func d1 d2 s.acc compute_bw write_back_mu).1 },
        none)) ∧
    (mapAccumStep func init_accum rank compute_bw write_back_mu s
        (.valStop d1 levLow) (.valStop d2 levLow) =
      .ok ({ acc := (func d1 d2 s.acc compute_bw write_back_mu).2,
             time := s.time +
               max (specLoad d1 d2)
                 (func d1 d2 s.acc compute_bw write_back_mu).1 },
        none)) ∧
    (mapAccumStep func init_accum rank compute_bw write_back_mu s
        (.valStop d1 rank) (.valStop d2 rank) =
      .ok ({ acc := init_accum,
             time := s.time +
               max (specLoad d1 d2)
                 (max (func d1 d2 s.acc compute_bw write_back_mu).1
                   (specStore init_accum write_back_mu)) },
        some (.val (func d1 d2 s.acc compute_bw write_back_mu).2))) ∧
    (mapAccumStep func init_accum rank compute_bw write_back_mu s
        (.valStop d1 levHigh) (.valStop d2 levHigh) =
      .ok ({ acc := init_accum,
             time := s.time +
               max (specLoad d1 d2)
                 (max (func d1 d2 s.acc compute_bw write_back_mu).1
                   (specStore init_accum write_back_mu)) },
        some (.valStop (func d1 d2 s.acc compute_bw write_back_mu).2
          (levHigh - rank)))) := by
  refine ⟨?_, ?_, ?_, ?_⟩
  · simp [mapAccumStep, processMapAccum_eq]
  · simp [mapAccumStep, processMapAccum_eq, hlow]
  · simp [mapAccumStep, processMapAccumInit_eq, Nat.lt_irrefl]
  · have h1 : ¬ levHigh < rank := by omega
    have h2 : ¬ levHigh = rank := by omega
    simp [mapAccumStep, processMapAccumInit_eq, h1, h2]

/-- C6, witness. -/
theorem mapAccum_characterization_witness :
    ((0 : Nat) < 1) ∧ ((1 : Nat) < 3) ∧
    (mapAccumStep (fun _ _ a _ _ => (9, a)) (Tile.mk [4, 4] 4 false) 1 512
        false { acc := Tile.mk [4, 4] 4 false, time := 11 }
        (.valStop (Tile.mk [4, 4] 4 true) 1) (.valStop (Tile.mk [4, 4] 4 true) 1) =
      .ok ({ acc := Tile.mk [4, 4] 4 false,
             time := 11 +
               max (specLoad (Tile.mk [4, 4] 4 true) (Tile.mk [4, 4] 4 true))
                 (max 9 (specStore (Tile.mk [4, 4] 4 false) false)) },
        some (.val (Tile.mk [4, 4] 4 false)))) := by
  refine ⟨by decide, by decide, ?_⟩
  exact (mapAccum_characterization (fun _ _ a _ _ => (9, a))
    (Tile.mk [4, 4] 4 false) 1 512 false
    { acc := Tile.mk [4, 4] 4 false, time := 11 }
    (Tile.mk [4, 4] 4 true) (Tile.mk [4, 4] 4 true) 0 3 (by decide)
    (by decide)).2.2.1

/-! ## Theorems for OffChipLoad address generation -/

theorem prodList_eq_prod (l : List Nat) : prodList l = l.prod := by
  induction l with
  | nil => rfl
  | cons d ds ih => simp [prodList, List.prod_cons, ← ih]

theorem prodList_reverse (l : List Nat) :
    prodList l.reverse = prodList l := by
  rw [prodList_eq_prod, prodList_eq_prod, List.prod_reverse]

theorem multiIndexGo_append (l : List Nat) (d : Nat) :
    ∀ f, multiIndexGo (l ++ [d]) f =
      multiIndexGo l f ++ [(f / prodList l) % d] := by
  induction l with
  | nil => intro f; simp [multiIndexGo, prodList]
  | cons e l ih =>
      intro f
      show (f % e) :: multiIndexGo (l ++ [d]) (f / e) =
        (f % e) :: (multiIndexGo l (f / e) ++ [f / prodList (e :: l) % d])
      rw [ih (f / e), Nat.div_div_eq_div_mul]
      rfl

theorem multiIndexOf_eq_rowMajor (shape : List Nat) :
    ∀ flat, multiIndexOf shape flat = rowMajorIndex shape flat := by
  induction shape with
  | nil => intro flat; rfl
  | cons d ds ih =>
      intro flat
      unfold multiIndexOf
      rw [List.reverse_cons, multiIndexGo_append, List.reverse_append,
        prodList_reverse]
      simp only [List.reverse_cons, List.reverse_nil, List.nil_append,
        List.singleton_append, rowMajorIndex]
      rw [← ih flat]
      rfl

theorem rowMajorIndex_lt (shape : List Nat) :
    ∀ flat, (∀ d ∈ shape, 1 ≤ d) →
      ∀ p ∈ shape.zip (rowMajorIndex shape flat), p.2 < p.1 := by
  induction shape with
  | nil => intro flat _ p hp; simp at hp
  | cons d ds ih =>
      intro flat hdims p hp
      simp only [rowMajorIndex, List.zip_cons_cons, List.mem_cons] at hp
      rcases hp with h | h
      · subst h
        exact Nat.mod_lt _ (hdims d (by simp))
      · exact ih flat (fun e he => hdims e (by simp [he])) p h

theorem highestStopGo_false (l : List (Nat × Nat)) :
    ∀ depth acc, highestStopGo l depth false acc = acc := by
  induction l with
  | nil => intro depth acc; rfl
  | cons p rest ih =>
      intro depth acc
      cases p with
      | mk sz ix => simpa [highestStopGo] using ih (depth + 1) acc

theorem highestStopGo_true (l : List (Nat × Nat)) :
    ∀ depth acc, (∀ p ∈ l, p.2 < p.1) →
      highestStopGo l depth true acc =
        (if (l.takeWhile (fun p => p.2 == p.1 - 1)).length = 0 then acc
         else some (depth + (l.takeWhile (fun p => p.2 == p.1 - 1)).length
           - 1)) := by
  induction l with
  | nil => intro depth acc _; rfl
  | cons p rest ih =>
      intro depth acc hb
      cases p with
      | mk sz ix =>
          have hix : ix < sz := hb (sz, ix) (by simp)
          by_cases hl : ix = sz - 1
          · have hcond : ix = sz - 1 ∨ sz = 1 := Or.inl hl
            rw [show highestStopGo ((sz, ix) :: rest) depth true acc =
                highestStopGo rest (depth + 1) (decide (ix = sz - 1))
                  (if ix = sz - 1 ∨ sz = 1 then some depth else acc) from rfl]
            rw [if_pos hcond, hl, decide_eq_true_eq.mpr rfl]
            rw [ih (depth + 1) (some depth) (fun q hq => hb q (by simp [hq]))]
            have htw : ((sz, sz - 1) :: rest).takeWhile
                (fun p => p.2 == p.1 - 1) =
                (sz, sz - 1) :: rest.takeWhile (fun p => p.2 == p.1 - 1) := by
              rw [List.takeWhile_cons_of_pos]
              simp
            rw [htw]
            simp only [List.length_cons]
            split_ifs <;>
              first
                | exact False.elim (by assumption)
                | omega
                | (exfalso; omega)
                | (congr 1; omega)
          · have hsz : sz ≠ 1 := by omega
            have hcond : ¬ (ix = sz - 1 ∨ sz = 1) := by
              intro h; rcases h with h | h <;> omega
            rw [show highestStopGo ((sz, ix) :: rest) depth true acc =
                highestStopGo rest (depth + 1) (decide (ix = sz - 1))
                  (if ix = sz - 1 ∨ sz = 1 then some depth else acc) from rfl]
            rw [if_neg hcond, decide_eq_false hl, highestStopGo_false]
            have htw : (((sz, ix) :: rest) : List (Nat × Nat)).takeWhile
                (fun p => p.2 == p.1 - 1) = [] := by
              rw [List.takeWhile_cons_of_neg]
              simpa using hl
            rw [htw]
            simp

/-- C8: for a flat tile position over positive `out_shape_tiled`
dimensions, the multi-index loop computes the row-major decomposition, the
source tile index is `Σ multi[d]·stride[d]` modulo the total number of
source tiles, and the attached stop level is the count of trailing
dimensions whose index component is at its last value (equivalently, the
innermost-to-outermost all-at-end scan; a size-1 dimension is always at
its last value), with no stop marker when the innermost dimension is not
at its end. -/
theorem offchip_load_addressing (out_shape stride tensor_shape : List Nat)
    (flat : Nat) (hdims : ∀ d ∈ out_shape, 1 ≤ d)
    (htensor : 0 < prodList tensor_shape) :
    multiIndexOf out_shape flat = rowMajorIndex out_shape flat ∧
    srcTileIdx out_shape stride tensor_shape flat =
      (((rowMajorIndex out_shape flat).zip stride).map
          (fun p => p.1 * p.2)).sum % prodList tensor_shape ∧
    highestStopToken out_shape (multiIndexOf out_shape flat) =
      (if ((out_shape.zip (rowMajorIndex out_shape flat)).reverse.takeWhile
            (fun p => p.2 == p.1 - 1)).length = 0 then none
       else some ((out_shape.zip
          (rowMajorIndex out_shape flat)).reverse.takeWhile
            (fun p => p.2 == p.1 - 1)).length) := by
  have hmi := multiIndexOf_eq_rowMajor out_shape flat
  refine ⟨hmi, ?_, ?_⟩
  · unfold srcTileIdx
    rw [hmi, if_pos htensor]
  · unfold highestStopToken
    rw [hmi]
    have hbound : ∀ p ∈ (out_shape.zip (rowMajorIndex out_shape flat)).reverse,
        p.2 < p.1 := by
      intro p hp
      exact rowMajorIndex_lt out_shape flat hdims p (List.mem_reverse.mp hp)
    rw [highestStopGo_true _ 1 none hbound]
    split_ifs with h
    · rfl
    · congr 1
      omega

/-- C8, witness. -/
theorem offchip_load_addressing_witness :
    ((∀ d ∈ ([2, 2, 1] : List Nat), 1 ≤ d) ∧ 0 < prodList [2, 1]) ∧
    (multiIndexOf [2, 2, 1] 3 = rowMajorIndex [2, 2, 1] 3 ∧
      srcTileIdx [2, 2, 1] [0, 1, 1] [2, 1] 3 =
        (((rowMajorIndex [2, 2, 1] 3).zip [0, 1, 1]).map
            (fun p => p.1 * p.2)).sum % prodList [2, 1] ∧
      highestStopToken [2, 2, 1] (multiIndexOf [2, 2, 1] 3) =
        (if ((([2, 2, 1] : List Nat).zip
              (rowMajorIndex [2, 2, 1] 3)).reverse.takeWhile
                (fun p => p.2 == p.1 - 1)).length = 0 then none
         else some ((([2, 2, 1] : List Nat).zip
            (rowMajorIndex [2, 2, 1] 3)).reverse.takeWhile
              (fun p => p.2 == p.1 - 1)).length)) :=
  ⟨⟨by decide, by decide⟩,
    offchip_load_addressing [2, 2, 1] [0, 1, 1] [2, 1] 3 (by decide)
      (by decide)⟩

/-! ## Theorems for C10: terminal stop levels of producers -/

theorem multiIndices_length (s : List Nat) :
    (multiIndices s).length = prodList s := by
  induction s with
  | nil => rfl
  | cons d ds ih =>
      simp only [multiIndices, List.length_flatMap, List.map_map]
      have : ∀ i : Nat,
          ((multiIndices ds).map (i :: ·)).length = prodList ds := by
        intro i; rw [List.length_map, ih]
      simp only [Function.comp_def, List.length_map, ih]
      rw [List.map_const', List.sum_replicate, List.length_range, smul_eq_mul]
      rfl

theorem toElemIterGo_ne_nil {α : Type} (ndim : Nat) (p : List Nat × α)
    (rest : List (List Nat × α)) : toElemIterGo ndim p rest ≠ [] := by
  cases rest <;> simp [toElemIterGo]

theorem toElemIterGo_getLast {α : Type} (ndim : Nat) :
    ∀ (rest : List (List Nat × α)) (p : List Nat × α),
      ∃ x, (toElemIterGo ndim p rest).getLast? =
        some (Elem.valStop x ndim) := by
  intro rest
  induction rest with
  | nil => intro p; exact ⟨p.2, rfl⟩
  | cons q rest ih =>
      intro p
      obtain ⟨x, hx⟩ := ih q
      refine ⟨x, ?_⟩
      cases p with
      | mk ind v =>
          rw [show toElemIterGo ndim (ind, v) (q :: rest) =
            (if ndim - outermostDiffIndex ind q.1 - 1 = 0 then Elem.val v
             else .valStop v (ndim - outermostDiffIndex ind q.1 - 1)) ::
              toElemIterGo ndim q rest from rfl]
          rw [List.getLast?_cons, hx]
          rfl

/-- C10, counterexample: a non-empty rank-2 buffer of shape `[1, 1]` emits
`[ValStop(x, 1)]` from `to_elem_iter` — the single-element special case —
so its last element carries level 1, not the rank 2. -/
theorem buffer_last_stop_counterexample :
    (Buffer.mk [1, 1] [(0 : Nat)]).toElemIter = [Elem.valStop 0 1] ∧
      (Buffer.mk [1, 1] [(0 : Nat)]).shape.length = 2 ∧ (1 : Nat) ≠ 2 := by
  refine ⟨rfl, rfl, by decide⟩

theorem rowMajorIndex_mod (ds : List Nat) :
    ∀ k r, (∀ d ∈ ds, 1 ≤ d) →
      rowMajorIndex ds (k * prodList ds + r) = rowMajorIndex ds r := by
  induction ds with
  | nil => intro k r _; rfl
  | cons e ds ih =>
      intro k r hd
      have hp : 0 < prodList ds := by
        rw [prodList_eq_prod]
        exact List.prod_pos (fun d hdm => hd d (by simp [hdm]))
      have h1 : k * prodList (e :: ds) + r = r + (k * e) * prodList ds := by
        show k * (e * prodList ds) + r = r + (k * e) * prodList ds
        ring
      simp only [rowMajorIndex, h1]
      congr 1
      · rw [Nat.add_mul_div_right _ _ hp, Nat.add_mul_mod_self_right]
      · rw [show r + (k * e) * prodList ds = (k * e) * prodList ds + r from by
          ring]
        exact ih (k * e) r (fun d hdm => hd d (by simp [hdm]))

theorem rowMajorIndex_last (s : List Nat) (hd : ∀ d ∈ s, 1 ≤ d) :
    rowMajorIndex s (prodList s - 1) = s.map (· - 1) := by
  induction s with
  | nil => rfl
  | cons d ds ih =>
      have hp : 0 < prodList ds := by
        rw [prodList_eq_prod]
        exact List.prod_pos (fun e hdm => hd e (by simp [hdm]))
      have hd1 : 1 ≤ d := hd d (by simp)
      have hsplit : prodList (d :: ds) - 1 =
          (prodList ds - 1) + (d - 1) * prodList ds := by
        show d * prodList ds - 1 = (prodList ds - 1) + (d - 1) * prodList ds
        rcases Nat.exists_eq_add_of_le hd1 with ⟨d', rfl⟩
        have : (1 + d') * prodList ds = prodList ds + d' * prodList ds := by
          ring
        rw [this]
        have h2 : (1 + d' - 1) * prodList ds = d' * prodList ds := by
          congr 1
          omega
        rw [h2]
        omega
      rw [hsplit]
      show ((prodList ds - 1 + (d - 1) * prodList ds) / prodList ds) % d ::
          rowMajorIndex ds (prodList ds - 1 + (d - 1) * prodList ds) =
        (d - 1) :: ds.map (· - 1)
      congr 1
      · rw [Nat.add_mul_div_right _ _ hp,
          Nat.div_eq_of_lt (by omega), Nat.zero_add,
          Nat.mod_eq_of_lt (by omega)]
      · rw [show prodList ds - 1 + (d - 1) * prodList ds =
            (d - 1) * prodList ds + (prodList ds - 1) from by ring]
        rw [rowMajorIndex_mod ds (d - 1) (prodList ds - 1)
          (fun e hdm => hd e (by simp [hdm]))]
        exact ih (fun e hdm => hd e (by simp [hdm]))

/-- C10 (amended): every buffer with at least two elements ends its
element stream with `ValStop(_, R)` where `R` is its number of dimensions
(a single-element buffer of higher rank ends with `ValStop(_, 1)`
instead, per the counterexample); and the last tile enumerated by
`OffChipLoad` carries stop level `|out_shape_tiled|`. -/
theorem producer_terminal_stop {α : Type} (b : Buffer α)
    (out_shape : List Nat) (hlen : b.data.length = prodList b.shape)
    (h2 : 2 ≤ b.data.length) (hdims : ∀ d ∈ out_shape, 1 ≤ d)
    (hne : out_shape ≠ []) :
    (b.toElemIter ≠ [] ∧
      ∃ x, b.toElemIter.getLast? = some (.valStop x b.shape.length)) ∧
    highestStopToken out_shape
        (multiIndexOf out_shape (prodList out_shape - 1)) =
      some out_shape.length := by
  constructor
  · have hzlen : ((multiIndices b.shape).zip b.data).length =
        b.data.length := by
      rw [List.length_zip, multiIndices_length, ← hlen]
      omega
    rcases hz : (multiIndices b.shape).zip b.data with _ | ⟨p, _ | ⟨q, rest⟩⟩
    · rw [hz] at hzlen
      simp at hzlen
      omega
    · rw [hz] at hzlen
      simp at hzlen
      omega
    · have hiter : b.toElemIter = toElemIterGo b.shape.length p (q :: rest) := by
        unfold Buffer.toElemIter
        rw [hz]
      rw [hiter]
      exact ⟨toElemIterGo_ne_nil _ _ _, toElemIterGo_getLast _ _ _⟩
  · rw [multiIndexOf_eq_rowMajor, rowMajorIndex_last out_shape hdims]
    unfold highestStopToken
    have hzm : ∀ l : List Nat,
        l.zip (l.map (· - 1)) = l.map (fun d => (d, d - 1)) := by
      intro l
      induction l with
      | nil => rfl
      | cons a l ih => simp [ih]
    rw [hzm]
    have hbound : ∀ p ∈ (out_shape.map (fun d => (d, d - 1))).reverse,
        p.2 < p.1 := by
      intro p hp
      rw [List.mem_reverse, List.mem_map] at hp
      obtain ⟨d, hdm, rfl⟩ := hp
      have := hdims d hdm
      omega
    rw [highestStopGo_true _ 1 none hbound]
    have htw : ((out_shape.map (fun d => (d, d - 1))).reverse.takeWhile
        (fun p => p.2 == p.1 - 1)) =
        (out_shape.map (fun d => (d, d - 1))).reverse := by
      rw [List.takeWhile_eq_self_iff]
      intro x hx
      rw [List.mem_reverse, List.mem_map] at hx
      obtain ⟨d, _, rfl⟩ := hx
      simp
    rw [htw]
    have hlen2 : ((out_shape.map (fun d => (d, d - 1))).reverse).length =
        out_shape.length := by
      rw [List.length_reverse, List.length_map]
    rw [hlen2]
    have hne' : out_shape.length ≠ 0 := by
      intro h
      exact hne (List.length_eq_zero.mp h)
    rw [if_neg hne']
    congr 1
    omega

/-- C10, witness. -/
theorem producer_terminal_stop_witness :
    ((Buffer.mk [2, 3] ([0, 1, 2, 3, 4, 5] : List Nat)).data.length =
        prodList (Buffer.mk [2, 3] ([0, 1, 2, 3, 4, 5] : List Nat)).shape ∧
      2 ≤ (Buffer.mk [2, 3] ([0, 1, 2, 3, 4, 5] : List Nat)).data.length ∧
      (∀ d ∈ ([2, 2, 1] : List Nat), 1 ≤ d) ∧
      ([2, 2, 1] : List Nat) ≠ []) ∧
    ((Buffer.mk [2, 3] ([0, 1, 2, 3, 4, 5] : List Nat)).toElemIter ≠ [] ∧
      ∃ x, (Buffer.mk [2, 3]
          ([0, 1, 2, 3, 4, 5] : List Nat)).toElemIter.getLast? =
        some (.valStop x
          (Buffer.mk [2, 3] ([0, 1, 2, 3, 4, 5] : List Nat)).shape.length)) ∧
    highestStopToken [2, 2, 1]
        (multiIndexOf [2, 2, 1] (prodList [2, 2, 1] - 1)) =
      some ([2, 2, 1] : List Nat).length := by
  refine ⟨⟨rfl, by decide, by decide, by decide⟩, ?_⟩
  exact producer_terminal_stop (Buffer.mk [2, 3] [0, 1, 2, 3, 4, 5])
    [2, 2, 1] rfl (by decide) (by decide) (by decide)

/-! ## Theorems for C1: the Bufferize → Streamify round trip

The development runs in five stages: structural lemmas about the canonical
streams (`canonG`), the `from_stream` state machine on canonical input,
assembly into `Buffer.fromStream`/`bufferizeRun`, the proof that
`Buffer::to_elem_iter` emits exactly the canonical stream, and the final
round-trip theorem. -/

theorem elemVal_mkElem {α : Type} (x : α) (l : Nat) :
    elemVal (mkElem x l) = x := by
  unfold mkElem elemVal
  split_ifs <;> rfl

theorem validShape_pos (s : List Nat) (h : validShape s = true) :
    ∀ d ∈ s, 1 ≤ d := by
  induction s with
  | nil => intro d hd; simp at hd
  | cons k s ih =>
      intro d hd
      cases s with
      | nil =>
          simp only [validShape, decide_eq_true_eq] at h
          rcases List.mem_cons.mp hd with rfl | hd'
          · exact h
          · simp at hd'
      | cons k2 s2 =>
          simp only [validShape, Bool.and_eq_true, decide_eq_true_eq] at h
          rcases List.mem_cons.mp hd with rfl | hd'
          · omega
          · exact ih (by simp [validShape, h.2]) d hd'

theorem prodList_pos (s : List Nat) (h : ∀ d ∈ s, 1 ≤ d) :
    1 ≤ prodList s := by
  rw [prodList_eq_prod]
  exact List.prod_pos (fun d hd => h d hd)

theorem validShape_tail (k : Nat) (s : List Nat)
    (h : validShape (k :: s) = true) (hs : s ≠ []) :
    2 ≤ k ∧ validShape s = true := by
  cases s with
  | nil => exact absurd rfl hs
  | cons k2 s2 =>
      simp only [validShape, Bool.and_eq_true, decide_eq_true_eq] at h
      exact ⟨h.1, h.2⟩

theorem chunksN_cons {α : Type} (r p : Nat) (c : List α) :
    chunksN (r + 1) p c = c.take p :: chunksN r p (c.drop p) := rfl

theorem chunksN_ne_nil {α : Type} (r p : Nat) (c : List α) :
    chunksN (r + 1) p c ≠ [] := by
  rw [chunksN_cons]
  simp

theorem canonG_cons {α : Type} (k : Nat) (s : List Nat) (data : List α)
    (fin : Nat) :
    canonG (k :: s) data fin =
      joinBlocks (fun c => canonG s c s.length) (fun c => canonG s c fin)
        (chunksN k (prodList s) data) := rfl

/-- Structure of a canonical stream: a body that is independent of the
final level, followed by one element carrying the final level; the
payloads are exactly the data, and the body's stop levels stay below the
rank. -/
theorem canonG_split {α : Type} (s : List Nat) :
    ∀ c : List α, c.length = prodList s → 1 ≤ prodList s →
      ∃ (body : List (Elem α)) (lastx : α),
        (∀ fin, canonG s c fin = body ++ [mkElem lastx fin]) ∧
        body.map elemVal ++ [lastx] = c ∧
        (∀ e ∈ body, (∃ x, e = Elem.val x) ∨
          ∃ x st, e = Elem.valStop x st ∧ 1 ≤ st ∧ st + 1 ≤ s.length) := by
  induction s with
  | nil =>
      intro c hc _
      have hc1 : c.length = 1 := by simpa [prodList] using hc
      rcases c with _ | ⟨x, c'⟩
      · simp at hc1
      · rcases c' with _ | ⟨y, c''⟩
        · exact ⟨[], x, fun fin => rfl, rfl, by simp⟩
        · simp at hc1
  | cons k s ih =>
      intro c hc hpos
      have hstep : prodList (k :: s) = k * prodList s := rfl
      have hp : 1 ≤ prodList s := by
        rcases Nat.eq_zero_or_pos (prodList s) with h0 | h1
        · rw [hstep, h0, Nat.mul_zero] at hpos; omega
        · exact h1
      have hk : 1 ≤ k := by
        rcases Nat.eq_zero_or_pos k with h0 | h1
        · rw [hstep, h0, Nat.zero_mul] at hpos; omega
        · exact h1
      -- inner induction over the number of blocks
      have inner : ∀ (r : Nat) (c : List α),
          c.length = (r + 1) * prodList s →
          ∃ (body : List (Elem α)) (lastx : α),
            (∀ fin,
              joinBlocks (fun c => canonG s c s.length)
                  (fun c => canonG s c fin) (chunksN (r + 1) (prodList s) c) =
                body ++ [mkElem lastx fin]) ∧
            body.map elemVal ++ [lastx] = c ∧
            (∀ e ∈ body, (∃ x, e = Elem.val x) ∨
              ∃ x st, e = Elem.valStop x st ∧ 1 ≤ st ∧
                st + 1 ≤ (k :: s).length) := by
        intro r
        induction r with
        | zero =>
            intro c hlen
            rw [Nat.one_mul] at hlen
            obtain ⟨body, lastx, hfin, hpay, hints⟩ := ih c hlen hp
            refine ⟨body, lastx, ?_, hpay, ?_⟩
            · intro fin
              rw [chunksN_cons]
              rw [List.take_of_length_le (by omega)]
              show canonG s c fin = body ++ [mkElem lastx fin]
              exact hfin fin
            · intro e he
              rcases hints e he with h | ⟨x, st, h1, h2, h3⟩
              · exact Or.inl h
              · exact Or.inr ⟨x, st, h1, h2, by simp; omega⟩
        | succ r ihr =>
            intro c hlen
            have hlen_take : (c.take (prodList s)).length = prodList s := by
              rw [List.length_take]
              have : prodList s ≤ c.length := by
                rw [hlen]; nlinarith
              omega
            have hlen_drop :
                (c.drop (prodList s)).length = (r + 1) * prodList s := by
              rw [List.length_drop, hlen]
              ring_nf
              omega
            obtain ⟨body0, last0, hfin0, hpay0, hints0⟩ :=
              ih (c.take (prodList s)) hlen_take hp
            obtain ⟨body1, last1, hfin1, hpay1, hints1⟩ :=
              ihr (c.drop (prodList s)) hlen_drop
            refine ⟨(body0 ++ [mkElem last0 s.length]) ++ body1, last1,
              ?_, ?_, ?_⟩
            · intro fin
              rw [chunksN_cons]
              have hne := chunksN_ne_nil r (prodList s) (c.drop (prodList s))
              rcases hcc :
                  chunksN (r + 1) (prodList s) (c.drop (prodList s)) with
                _ | ⟨c2, cs⟩
              · exact absurd hcc hne
              · show canonG s (c.take (prodList s)) s.length ++
                    joinBlocks (fun c => canonG s c s.length)
                      (fun c => canonG s c fin) (c2 :: cs) =
                  (body0 ++ [mkElem last0 s.length]) ++ body1 ++
                    [mkElem last1 fin]
                rw [hfin0 s.length, ← hcc, hfin1 fin]
                simp [List.append_assoc]
            · rw [List.map_append, List.map_append]
              simp only [List.map_cons, List.map_nil, elemVal_mkElem]
              rw [List.append_assoc, List.append_assoc]
              rw [show ([last0] ++ (body1.map elemVal ++ [last1]) :
                  List α) = [last0] ++ (body1.map elemVal ++ [last1]) from
                rfl]
              rw [hpay1]
              have : body0.map elemVal ++ ([last0] ++ c.drop (prodList s)) =
                  (body0.map elemVal ++ [last0]) ++ c.drop (prodList s) := by
                simp [List.append_assoc]
              rw [this, hpay0, List.take_append_drop]
            · intro e he
              rcases List.mem_append.mp he with he' | he'
              · rcases List.mem_append.mp he' with hb | hl
                · rcases hints0 e hb with h | ⟨x, st, h1, h2, h3⟩
                  · exact Or.inl h
                  · exact Or.inr ⟨x, st, h1, h2, by simp; omega⟩
                · rcases List.mem_singleton.mp hl with rfl
                  by_cases hsl : s.length = 0
                  · rw [hsl]
                    exact Or.inl ⟨last0, by simp [mkElem]⟩
                  · refine Or.inr ⟨last0, s.length, ?_, by omega, by simp⟩
                    simp [mkElem, hsl]
              · rcases hints1 e he' with h | ⟨x, st, h1, h2, h3⟩
                · exact Or.inl h
                · exact Or.inr ⟨x, st, h1, h2, h3⟩
      cases k with
      | zero => omega
      | succ k' =>
          have hck : c.length = (k' + 1) * prodList s := by
            rw [hc, hstep]
          obtain ⟨body, lastx, hfin, hpay, hints⟩ := inner k' c hck
          exact ⟨body, lastx, fun fin => by rw [canonG_cons]; exact hfin fin,
            hpay, hints⟩

theorem getD_append_length (l : List Nat) (a d : Nat) :
    (l ++ [a]).getD l.length d = a := by
  induction l with
  | nil => rfl
  | cons e l ih => simpa using ih

theorem set_append_length (l : List Nat) (a b : Nat) :
    (l ++ [a]).set l.length b = l ++ [b] := by
  induction l with
  | nil => rfl
  | cons e l ih => simp [ih]

theorem fromStreamGo_val_step {α : Type} (rank : Nat) (v : α)
    (rest : List (Elem α)) (buffer : List α) (si : List Nat) (tr : Nat) :
    fromStreamGo rank (Elem.val v :: rest) buffer si tr =
      fromStreamGo rank rest (buffer ++ [v])
        (if si.length = 1 then si.set 0 (si.getD 0 0 + 1) else si) tr := rfl

theorem fromStreamGo_stop_noop {α : Type} (rank : Nat) (x : α) (st : Nat)
    (rest : List (Elem α)) (buffer : List α) (si : List Nat) (tr : Nat)
    (h1 : ¬ st = rank) (h2 : ¬ rank < st) (h3 : ¬ si.length = st)
    (h4 : ¬ (st < si.length ∧ tr ≤ st)) :
    fromStreamGo rank (Elem.valStop x st :: rest) buffer si tr =
      fromStreamGo rank rest (buffer ++ [x]) si tr := by
  simp only [fromStreamGo, if_neg h1, if_neg h2, if_neg h3, if_neg h4]

theorem fromStreamGo_stop_mid {α : Type} (rank : Nat) (x : α) (st : Nat)
    (rest : List (Elem α)) (buffer : List α) (si : List Nat) (tr : Nat)
    (h1 : ¬ st = rank) (h2 : ¬ rank < st) (h3 : ¬ si.length = st)
    (h4 : st < si.length ∧ tr ≤ st) :
    fromStreamGo rank (Elem.valStop x st :: rest) buffer si tr =
      fromStreamGo rank rest (buffer ++ [x])
        (si.set st (si.getD st 0 + 1)) tr := by
  simp only [fromStreamGo, if_neg h1, if_neg h2, if_neg h3, if_pos h4,
    listIncr, if_pos h4.1]

theorem fromStreamGo_stop_grow {α : Type} (rank : Nat) (x : α) (st : Nat)
    (rest : List (Elem α)) (buffer : List α) (si : List Nat) (tr : Nat)
    (h1 : ¬ st = rank) (h2 : ¬ rank < st) (h3 : si.length = st)
    (h5 : st - 1 < si.length) :
    fromStreamGo rank (Elem.valStop x st :: rest) buffer si tr =
      fromStreamGo rank rest (buffer ++ [x])
        (si.set (st - 1) (si.getD (st - 1) 0 + 1) ++ [1]) (tr + 1) := by
  simp only [fromStreamGo, if_neg h1, if_neg h2, if_pos h3, listIncr,
    if_pos h5]

theorem fromStreamGo_stop_finish {α : Type} (rank : Nat) (x : α)
    (rest : List (Elem α)) (buffer : List α) (si : List Nat) (tr : Nat)
    (h5 : rank - 1 < si.length) :
    fromStreamGo rank (Elem.valStop x rank :: rest) buffer si tr =
      (if prodList (si.set (rank - 1) (si.getD (rank - 1) 0 + 1)).reverse =
          (buffer ++ [x]).length then
        .ok ⟨⟨(si.set (rank - 1) (si.getD (rank - 1) 0 + 1)).reverse,
          buffer ++ [x]⟩, none, rest⟩
      else .error .shapePanic) := by
  simp only [fromStreamGo, listIncr, if_pos h5]
  simp

theorem all_val_struct {α : Type} (body : List (Elem α))
    (h : ∀ e ∈ body, ∃ x, e = Elem.val x) :
    body = (body.map elemVal).map Elem.val := by
  induction body with
  | nil => rfl
  | cons e body ih =>
      obtain ⟨x, rfl⟩ := h e (by simp)
      simp only [List.map_cons, elemVal, List.map_cons]
      rw [← ih (fun e he => h e (by simp [he]))]

theorem fromStreamGo_noop {α : Type} (rank B : Nat) :
    ∀ (L : List (Elem α)),
      (∀ e ∈ L, (∃ x, e = Elem.val x) ∨
        ∃ x st, e = Elem.valStop x st ∧ 1 ≤ st ∧ st ≤ B) →
      ∀ (tail : List (Elem α)) (buffer : List α) (si : List Nat) (tr : Nat),
        B < tr → B + 2 ≤ si.length → B < rank →
        fromStreamGo rank (L ++ tail) buffer si tr =
          fromStreamGo rank tail (buffer ++ L.map elemVal) si tr := by
  intro L
  induction L with
  | nil => intro _ tail buffer si tr _ _ _; simp
  | cons e L ih =>
      intro hL tail buffer si tr htr hsi hrank
      have hlen2 : 2 ≤ si.length := by omega
      rcases hL e (by simp) with ⟨x, rfl⟩ | ⟨x, st, rfl, hst1, hst2⟩
      · rw [List.cons_append, fromStreamGo_val_step, if_neg (by omega),
          ih (fun e he => hL e (by simp [he])) tail (buffer ++ [x]) si tr htr
            hsi hrank]
        simp [elemVal]
      · rw [List.cons_append,
          fromStreamGo_stop_noop rank x st _ _ _ _ (by omega) (by omega)
            (by omega) (by omega),
          ih (fun e he => hL e (by simp [he])) tail (buffer ++ [x]) si tr htr
            hsi hrank]
        simp [elemVal]

theorem fromStreamGo_vals {α : Type} (rank : Nat) (xs : List α) :
    ∀ (tail : List (Elem α)) (buffer : List α) (j tr : Nat),
      fromStreamGo rank ((xs.map Elem.val) ++ tail) buffer [j] tr =
        fromStreamGo rank tail (buffer ++ xs) [j + xs.length] tr := by
  induction xs with
  | nil => intro tail buffer j tr; simp
  | cons x xs ih =>
      intro tail buffer j tr
      rw [List.map_cons, List.cons_append, fromStreamGo_val_step]
      have hset : (if ([j] : List Nat).length = 1 then
          ([j] : List Nat).set 0 (([j] : List Nat).getD 0 0 + 1)
        else [j]) = [j + 1] := by simp
      rw [hset, ih tail (buffer ++ [x]) (j + 1) tr]
      have h1 : buffer ++ [x] ++ xs = buffer ++ (x :: xs) := by simp
      have h2 : j + 1 + xs.length = j + (xs.length + 1) := by omega
      rw [h1, h2]
      rfl

theorem getD_rev_append (s2 : List Nat) (j d : Nat) :
    (s2.reverse ++ [j]).getD s2.length d = j := by
  have h := getD_append_length s2.reverse j d
  simpa using h

theorem set_rev_append (s2 : List Nat) (j b : Nat) :
    (s2.reverse ++ [j]).set s2.length b = s2.reverse ++ [b] := by
  have h := set_append_length s2.reverse j b
  simpa using h

theorem chunksN_length {α : Type} (p : Nat) :
    ∀ (r : Nat) (c : List α), (chunksN r p c).length = r := by
  intro r
  induction r with
  | zero => intro c; rfl
  | succ r ih => intro c; simp [chunksN_cons, ih]

theorem chunksN_mem_length {α : Type} (p : Nat) :
    ∀ (r : Nat) (c : List α), c.length = r * p →
      ∀ ch ∈ chunksN r p c, ch.length = p := by
  intro r
  induction r with
  | zero => intro c _ ch hch; simp [chunksN] at hch
  | succ r ih =>
      intro c hc ch hch
      rw [chunksN_cons] at hch
      rcases List.mem_cons.mp hch with rfl | hch'
      · rw [List.length_take]
        have : p ≤ c.length := by rw [hc]; nlinarith
        omega
      · exact ih (c.drop p)
          (by rw [List.length_drop, hc]; ring_nf; omega) ch hch'

theorem chunksN_flatten {α : Type} (p : Nat) :
    ∀ (r : Nat) (c : List α), c.length = r * p →
      (chunksN r p c).flatten = c := by
  intro r
  induction r with
  | zero =>
      intro c hc
      have : c = [] := List.length_eq_zero.mp (by simpa using hc)
      simp [chunksN, this]
  | succ r ih =>
      intro c hc
      rw [chunksN_cons, List.flatten_cons,
        ih (c.drop p) (by rw [List.length_drop, hc]; ring_nf; omega),
        List.take_append_drop]

/-- Processing the body of a canonical block in a state whose `shape_info`
already covers all its interior levels is a pure pass-through: the
payloads accumulate into the buffer and the final element is exposed. -/
theorem fromStreamGo_canon_body {α : Type} (s2 : List Nat) (hne : s2 ≠ [])
    (c : List α) (rank : Nat) (si : List Nat) (tr : Nat)
    (hc : c.length = prodList s2) (hp : 1 ≤ prodList s2)
    (htr : s2.length ≤ tr) (hsi : s2.length + 1 ≤ si.length)
    (hrank : s2.length ≤ rank) (fin : Nat) (tail : List (Elem α))
    (buffer : List α) :
    ∃ (front : List α) (lastx : α), front ++ [lastx] = c ∧
      fromStreamGo rank (canonG s2 c fin ++ tail) buffer si tr =
        fromStreamGo rank (mkElem lastx fin :: tail) (buffer ++ front) si
          tr := by
  have hlen1 : 1 ≤ s2.length := List.length_pos.mpr hne
  obtain ⟨body, lastx, hfin, hpay, hints⟩ := canonG_split s2 c hc hp
  refine ⟨body.map elemVal, lastx, hpay, ?_⟩
  rw [hfin fin, List.append_assoc, List.singleton_append]
  exact fromStreamGo_noop rank (s2.length - 1) body
    (by
      intro e he
      rcases hints e he with h | ⟨x, st, h1, h2, h3⟩
      · exact Or.inl h
      · exact Or.inr ⟨x, st, h1, h2, by omega⟩)
    (mkElem lastx fin :: tail) buffer si tr (by omega) (by omega) (by omega)

theorem fromStreamGo_midblocks {α : Type} (s2 : List Nat) (hne : s2 ≠ []) :
    ∀ (cs : List (List α)) (c1 : List α) (j : Nat) (tail : List (Elem α))
      (buffer : List α) (rank : Nat),
      (∀ ch ∈ c1 :: cs, ch.length = prodList s2) →
      1 ≤ prodList s2 →
      s2.length + 1 < rank →
      fromStreamGo rank
          (joinBlocks (fun ch => canonG s2 ch s2.length)
              (fun ch => canonG s2 ch (s2.length + 1)) (c1 :: cs) ++ tail)
            buffer (s2.reverse ++ [j]) s2.length =
        fromStreamGo rank tail (buffer ++ (c1 :: cs).flatten)
          ((s2.reverse ++ [j + cs.length + 1]) ++ [1]) (s2.length + 1) := by
  intro cs
  have hlen1 : 1 ≤ s2.length := List.length_pos.mpr hne
  have hsilen : ∀ j : Nat, (s2.reverse ++ [j]).length = s2.length + 1 := by
    intro j; simp
  induction cs with
  | nil =>
      intro c1 j tail buffer rank hch hp hrank
      obtain ⟨front, lastx, hpay, hstep⟩ :=
        fromStreamGo_canon_body s2 hne c1 rank (s2.reverse ++ [j])
          s2.length (hch c1 (by simp)) hp (by omega)
          (by rw [hsilen]) (by omega) (s2.length + 1) tail buffer
      rw [show joinBlocks (fun ch => canonG s2 ch s2.length)
          (fun ch => canonG s2 ch (s2.length + 1)) [c1] =
          canonG s2 c1 (s2.length + 1) from rfl]
      rw [hstep]
      rw [show mkElem lastx (s2.length + 1) =
        Elem.valStop lastx (s2.length + 1) from by simp [mkElem]]
      rw [fromStreamGo_stop_grow rank lastx (s2.length + 1) tail
        (buffer ++ front) (s2.reverse ++ [j]) s2.length (by omega)
        (by omega) (by rw [hsilen]) (by rw [hsilen]; omega)]
      rw [show s2.length + 1 - 1 = s2.length from rfl, getD_rev_append,
        set_rev_append]
      simp only [List.flatten_cons, List.flatten_nil, List.append_nil,
        List.length_nil]
      rw [List.append_assoc, hpay]
  | cons c2 cs ih =>
      intro c1 j tail buffer rank hch hp hrank
      obtain ⟨front, lastx, hpay, hstep⟩ :=
        fromStreamGo_canon_body s2 hne c1 rank (s2.reverse ++ [j])
          s2.length (hch c1 (by simp)) hp (by omega)
          (by rw [hsilen]) (by omega) s2.length
          (joinBlocks (fun ch => canonG s2 ch s2.length)
            (fun ch => canonG s2 ch (s2.length + 1)) (c2 :: cs) ++ tail)
          buffer
      rw [show joinBlocks (fun ch => canonG s2 ch s2.length)
          (fun ch => canonG s2 ch (s2.length + 1)) (c1 :: c2 :: cs) =
          canonG s2 c1 s2.length ++
            joinBlocks (fun ch => canonG s2 ch s2.length)
              (fun ch => canonG s2 ch (s2.length + 1)) (c2 :: cs) from rfl]
      rw [List.append_assoc, hstep]
      rw [show mkElem lastx s2.length = Elem.valStop lastx s2.length from by
        rw [mkElem, if_neg (by omega)]]
      rw [fromStreamGo_stop_mid rank lastx s2.length _ (buffer ++ front)
        (s2.reverse ++ [j]) s2.length (by omega) (by omega)
        (by rw [hsilen]; omega) (by rw [hsilen]; omega)]
      rw [getD_rev_append, set_rev_append]
      rw [ih c2 (j + 1) tail (buffer ++ front ++ [lastx]) rank
        (fun ch hch2 => hch ch (by simp at hch2 ⊢; tauto)) hp hrank]
      have hflat : buffer ++ front ++ [lastx] ++ (c2 :: cs).flatten =
          buffer ++ (c1 :: c2 :: cs).flatten := by
        rw [List.flatten_cons, ← hpay]
        simp [List.append_assoc]
      have harith : j + 1 + cs.length + 1 = j + (c2 :: cs).length + 1 := by
        simp only [List.length_cons]
        omega
      rw [hflat, harith]

theorem fromStreamGo_stop_over {α : Type} (rank : Nat) (x : α) (st : Nat)
    (rest : List (Elem α)) (buffer : List α) (si : List Nat) (tr : Nat)
    (hlt : rank < st) (h5 : rank - 1 < si.length) :
    fromStreamGo rank (Elem.valStop x st :: rest) buffer si tr =
      (if prodList (si.set (rank - 1) (si.getD (rank - 1) 0 + 1)).reverse =
          (buffer ++ [x]).length then
        .ok ⟨⟨(si.set (rank - 1) (si.getD (rank - 1) 0 + 1)).reverse,
          buffer ++ [x]⟩, some (st - rank), rest⟩
      else .error .shapePanic) := by
  simp only [fromStreamGo, if_neg (by omega : ¬ st = rank), if_pos hlt,
    listIncr, if_pos h5]

theorem fromStreamGo_topblocks {α : Type} (s1 : List Nat) (hne : s1 ≠ [])
    (fin : Nat) (hfin : s1.length + 1 ≤ fin) :
    ∀ (cs : List (List α)) (c1 : List α) (j : Nat) (tail : List (Elem α))
      (buffer : List α),
      (∀ ch ∈ c1 :: cs, ch.length = prodList s1) →
      1 ≤ prodList s1 →
      buffer.length = j * prodList s1 →
      fromStreamGo (s1.length + 1)
          (joinBlocks (fun ch => canonG s1 ch s1.length)
              (fun ch => canonG s1 ch fin) (c1 :: cs) ++ tail)
            buffer (s1.reverse ++ [j]) s1.length =
        .ok ⟨⟨(j + cs.length + 1) :: s1, buffer ++ (c1 :: cs).flatten⟩,
          (if s1.length + 1 < fin then some (fin - (s1.length + 1))
            else none), tail⟩ := by
  intro cs
  have hlen1 : 1 ≤ s1.length := List.length_pos.mpr hne
  have hsilen : ∀ j : Nat, (s1.reverse ++ [j]).length = s1.length + 1 := by
    intro j; simp
  induction cs with
  | nil =>
      intro c1 j tail buffer hch hp hbuf
      obtain ⟨front, lastx, hpay, hstep⟩ :=
        fromStreamGo_canon_body s1 hne c1 (s1.length + 1)
          (s1.reverse ++ [j]) s1.length (hch c1 (by simp)) hp (by omega)
          (by rw [hsilen]) (by omega) fin tail buffer
      rw [show joinBlocks (fun ch => canonG s1 ch s1.length)
          (fun ch => canonG s1 ch fin) [c1] =
          canonG s1 c1 fin from rfl]
      rw [hstep]
      rw [show mkElem lastx fin =
        Elem.valStop lastx fin from by rw [mkElem, if_neg (by omega)]]
      have hc1len : c1.length = prodList s1 := hch c1 (by simp)
      have hlen : (buffer ++ front ++ [lastx]).length =
          (j + 1) * prodList s1 := by
        have : (front ++ [lastx]).length = c1.length := by rw [hpay]
        simp only [List.length_append, List.length_singleton] at this ⊢
        rw [hbuf, hc1len] at *
        ring_nf
        omega
      have hprod : prodList ((j + 1) :: s1) = (j + 1) * prodList s1 := rfl
      have hrev : (s1.reverse ++ [j + 1]).reverse = (j + 1) :: s1 := by
        simp
      rcases eq_or_lt_of_le hfin with hf | hf
      · rw [← hf]
        rw [fromStreamGo_stop_finish (s1.length + 1) lastx tail
          (buffer ++ front) (s1.reverse ++ [j]) s1.length
          (by rw [hsilen]; omega)]
        rw [show s1.length + 1 - 1 = s1.length from rfl, getD_rev_append,
          set_rev_append]
        rw [hrev]
        rw [if_pos (by rw [hprod, ← hlen])]
        rw [if_neg (by omega)]
        simp only [List.flatten_cons, List.flatten_nil, List.append_nil,
          List.length_nil]
        rw [List.append_assoc, hpay]
      · rw [fromStreamGo_stop_over (s1.length + 1) lastx fin tail
          (buffer ++ front) (s1.reverse ++ [j]) s1.length hf
          (by rw [hsilen]; omega)]
        rw [show s1.length + 1 - 1 = s1.length from rfl, getD_rev_append,
          set_rev_append]
        rw [hrev]
        rw [if_pos (by rw [hprod, ← hlen])]
        rw [if_pos hf]
        simp only [List.flatten_cons, List.flatten_nil, List.append_nil,
          List.length_nil]
        rw [List.append_assoc, hpay]
  | cons c2 cs ih =>
      intro c1 j tail buffer hch hp hbuf
      obtain ⟨front, lastx, hpay, hstep⟩ :=
        fromStreamGo_canon_body s1 hne c1 (s1.length + 1)
          (s1.reverse ++ [j]) s1.length (hch c1 (by simp)) hp (by omega)
          (by rw [hsilen]) (by omega) s1.length
          (joinBlocks (fun ch => canonG s1 ch s1.length)
            (fun ch => canonG s1 ch fin) (c2 :: cs) ++ tail)
          buffer
      rw [show joinBlocks (fun ch => canonG s1 ch s1.length)
          (fun ch => canonG s1 ch fin) (c1 :: c2 :: cs) =
          canonG s1 c1 s1.length ++
            joinBlocks (fun ch => canonG s1 ch s1.length)
              (fun ch => canonG s1 ch fin) (c2 :: cs) from rfl]
      rw [List.append_assoc, hstep]
      rw [show mkElem lastx s1.length = Elem.valStop lastx s1.length from by
        rw [mkElem, if_neg (by omega)]]
      rw [fromStreamGo_stop_mid (s1.length + 1) lastx s1.length _
        (buffer ++ front) (s1.reverse ++ [j]) s1.length (by omega) (by omega)
        (by rw [hsilen]; omega) (by rw [hsilen]; omega)]
      rw [getD_rev_append, set_rev_append]
      have hc1len : c1.length = prodList s1 := hch c1 (by simp)
      have hbuf2 : (buffer ++ front ++ [lastx]).length =
          (j + 1) * prodList s1 := by
        have : (front ++ [lastx]).length = c1.length := by rw [hpay]
        simp only [List.length_append, List.length_singleton] at this ⊢
        rw [hbuf, hc1len] at *
        ring_nf
        omega
      rw [ih c2 (j + 1) tail (buffer ++ front ++ [lastx])
        (fun ch hch2 => hch ch (by simp at hch2 ⊢; tauto)) hp hbuf2]
      have hflat : buffer ++ front ++ [lastx] ++ (c2 :: cs).flatten =
          buffer ++ (c1 :: c2 :: cs).flatten := by
        rw [List.flatten_cons, ← hpay]
        simp [List.append_assoc]
      have harith : j + 1 + cs.length + 1 = j + (c2 :: cs).length + 1 := by
        simp only [List.length_cons]
        omega
      rw [hflat, harith]

theorem canonG_ne_nil {α : Type} (s : List Nat) (c : List α) (fin : Nat)
    (hc : c.length = prodList s) (hp : 1 ≤ prodList s) :
    canonG s c fin ≠ [] := by
  obtain ⟨body, lastx, hfin, _, _⟩ := canonG_split s c hc hp
  rw [hfin fin]
  simp

/-- Processing the first canonical block from the fresh `from_stream`
state builds `shape_info` from scratch: one slot per dimension, the
outermost slot at 1 and every inner slot at its full extent. -/
theorem fromStreamGo_grow {α : Type} :
    ∀ (s : List Nat), validShape s = true →
    ∀ (c : List α) (rank : Nat) (tail : List (Elem α)) (buffer : List α),
      c.length = prodList s → s.length < rank →
      fromStreamGo rank (canonG s c s.length ++ tail) buffer [0] 0 =
        fromStreamGo rank tail (buffer ++ c) (s.reverse ++ [1]) s.length := by
  intro s
  induction s with
  | nil => intro h; simp [validShape] at h
  | cons n s2 ih =>
      cases s2 with
      | nil =>
          intro hvs c rank tail buffer hc hrank
          have hn : 1 ≤ n := by simpa [validShape] using hvs
          have hcn : c.length = n := by simpa [prodList] using hc
          have hrank1 : 1 < rank := by simpa using hrank
          have hp : 1 ≤ prodList [n] := by
            have : prodList [n] = n := by simp [prodList]
            omega
          obtain ⟨body, lastx, hfin, hpay, hints⟩ := canonG_split [n] c hc hp
          have hval : ∀ e ∈ body, ∃ x, e = Elem.val x := by
            intro e he
            rcases hints e he with h | ⟨x, st, h1, h2, h3⟩
            · exact h
            · exfalso; simp at h3; omega
          have hblen : body.length + 1 = n := by
            have h1 := congrArg List.length hpay
            simp at h1
            omega
          show fromStreamGo rank (canonG [n] c 1 ++ tail) buffer [0] 0 =
            fromStreamGo rank tail (buffer ++ c) ([n] ++ [1]) 1
          rw [hfin 1, all_val_struct body hval, List.append_assoc,
            List.singleton_append]
          rw [fromStreamGo_vals rank (body.map elemVal)
            (mkElem lastx 1 :: tail) buffer 0 0]
          rw [show mkElem lastx 1 = Elem.valStop lastx 1 from by
            rw [mkElem, if_neg (by omega)]]
          rw [fromStreamGo_stop_grow rank lastx 1 tail
            (buffer ++ body.map elemVal) [0 + (body.map elemVal).length] 0
            (by omega) (by omega) (by simp) (by simp)]
          have hb : buffer ++ body.map elemVal ++ [lastx] = buffer ++ c := by
            rw [List.append_assoc, hpay]
          have hsi : ([0 + (body.map elemVal).length] : List Nat).set (1 - 1)
              (([0 + (body.map elemVal).length] : List Nat).getD (1 - 1) 0
                + 1) ++ [1] = [n] ++ [1] := by
            simp
            omega
          rw [hb, hsi]
      | cons m s3 =>
          intro hvs c rank tail buffer hc hrank
          obtain ⟨hn2, hvs2⟩ := validShape_tail n (m :: s3) hvs (by simp)
          have hp2 : 1 ≤ prodList (m :: s3) :=
            prodList_pos _ (validShape_pos _ hvs2)
          obtain ⟨k', rfl⟩ : ∃ k', n = k' + 2 := ⟨n - 2, by omega⟩
          have hc' : c.length = (k' + 2) * prodList (m :: s3) := hc
          have hchlen : ∀ ch ∈ chunksN (k' + 2) (prodList (m :: s3)) c,
              ch.length = prodList (m :: s3) :=
            chunksN_mem_length _ _ c hc'
          rcases hrest : chunksN (k' + 1) (prodList (m :: s3))
              (c.drop (prodList (m :: s3))) with _ | ⟨c2, cs⟩
          · exact absurd hrest (chunksN_ne_nil _ _ _)
          · have hsplit : chunksN (k' + 2) (prodList (m :: s3)) c =
                c.take (prodList (m :: s3)) :: c2 :: cs := by
              rw [chunksN_cons, hrest]
            have hLHS : canonG ((k' + 2) :: m :: s3) c
                ((k' + 2) :: m :: s3).length =
                canonG (m :: s3) (c.take (prodList (m :: s3)))
                    (m :: s3).length ++
                  joinBlocks (fun ch => canonG (m :: s3) ch (m :: s3).length)
                    (fun ch => canonG (m :: s3) ch ((m :: s3).length + 1))
                    (c2 :: cs) := by
              rw [canonG_cons, hsplit]
              rfl
            rw [hLHS, List.append_assoc]
            rw [ih hvs2 (c.take (prodList (m :: s3))) rank _ buffer
              (hchlen (c.take (prodList (m :: s3)))
                (by rw [hsplit]; simp)) (by simp at hrank ⊢; omega)]
            rw [fromStreamGo_midblocks (m :: s3) (by simp) cs c2 1 tail
              (buffer ++ c.take (prodList (m :: s3))) rank
              (fun ch hch => hchlen ch (by rw [hsplit]; simp at hch ⊢; tauto))
              hp2 (by simp at hrank ⊢; omega)]
            have hflat : buffer ++ c.take (prodList (m :: s3)) ++
                (c2 :: cs).flatten = buffer ++ c := by
              rw [List.append_assoc]
              congr 1
              have := chunksN_flatten (prodList (m :: s3)) (k' + 2) c hc'
              rw [hsplit] at this
              simpa using this
            have hcs : cs.length = k' := by
              have h1 := chunksN_length (prodList (m :: s3)) (k' + 1)
                (c.drop (prodList (m :: s3)))
              rw [hrest] at h1
              simp at h1
              omega
            have hsi : ((m :: s3).reverse ++ [1 + cs.length + 1]) ++ [1] =
                ((k' + 2) :: m :: s3).reverse ++ [1] := by
              rw [hcs]
              simp
              omega
            rw [hflat, hsi]
            rfl

/-- `Buffer::from_stream` on a canonical valid-shape group of rank
`|s|` whose final stop closes `fin - |s|` extra dimensions: the buffer is
reconstructed exactly, with the extra levels reported as the
`StopToken` residual. -/
theorem fromStream_canon {α : Type} (s : List Nat) (d : List α) (fin : Nat)
    (tail : List (Elem α)) (hs : validShape s = true)
    (hd : d.length = prodList s) (hfin : s.length ≤ fin) :
    Buffer.fromStream s.length (canonG s d fin ++ tail) =
      .ok ⟨⟨s, d⟩, if s.length < fin then some (fin - s.length) else none,
        tail⟩ := by
  cases s with
  | nil => simp [validShape] at hs
  | cons n s2 =>
      cases s2 with
      | nil =>
          have hn : 1 ≤ n := by simpa [validShape] using hs
          have hdn : d.length = n := by simpa [prodList] using hd
          have hfin1 : 1 ≤ fin := by simpa using hfin
          have hp : 1 ≤ prodList [n] := by
            have : prodList [n] = n := by simp [prodList]
            omega
          obtain ⟨body, lastx, hfin2, hpay, hints⟩ :=
            canonG_split [n] d hd hp
          have hval : ∀ e ∈ body, ∃ x, e = Elem.val x := by
            intro e he
            rcases hints e he with h | ⟨x, st, h1, h2, h3⟩
            · exact h
            · exfalso; simp at h3; omega
          have hblen : body.length + 1 = n := by
            have h1 := congrArg List.length hpay
            simp at h1
            omega
          show Buffer.fromStream 1 (canonG [n] d fin ++ tail) = _
          rw [Buffer.fromStream, if_neg (by omega)]
          rw [hfin2 fin, all_val_struct body hval, List.append_assoc,
            List.singleton_append]
          rw [fromStreamGo_vals 1 (body.map elemVal)
            (mkElem lastx fin :: tail) [] 0 0]
          rw [show mkElem lastx fin = Elem.valStop lastx fin from by
            rw [mkElem, if_neg (by simp at hfin; omega)]]
          simp only [List.nil_append]
          rcases eq_or_lt_of_le hfin with hf | hf
          · rw [show fin = 1 from by simpa using hf.symm]
            rw [fromStreamGo_stop_finish 1 lastx tail (body.map elemVal)
              [0 + (body.map elemVal).length] 0 (by simp)]
            have hset : (([0 + (body.map elemVal).length] : List Nat).set
                (1 - 1) (([0 + (body.map elemVal).length] : List Nat).getD
                  (1 - 1) 0 + 1)).reverse = [n] := by
              simp
              omega
            rw [hset]
            rw [if_pos (by simp [prodList]; omega)]
            rw [hpay]
            rw [if_neg (by simp)]
          · have hf1 : 1 < fin := by simpa using hf
            rw [fromStreamGo_stop_over 1 lastx fin tail (body.map elemVal)
              [0 + (body.map elemVal).length] 0 hf1 (by simp)]
            have hset : (([0 + (body.map elemVal).length] : List Nat).set
                (1 - 1) (([0 + (body.map elemVal).length] : List Nat).getD
                  (1 - 1) 0 + 1)).reverse = [n] := by
              simp
              omega
            rw [hset]
            rw [if_pos (by simp [prodList]; omega)]
            rw [hpay]
            rw [if_pos (by simpa using hf)]
            rfl
      | cons m s3 =>
          obtain ⟨hn2, hvs2⟩ := validShape_tail n (m :: s3) hs (by simp)
          have hp2 : 1 ≤ prodList (m :: s3) :=
            prodList_pos _ (validShape_pos _ hvs2)
          obtain ⟨k', rfl⟩ : ∃ k', n = k' + 2 := ⟨n - 2, by omega⟩
          have hd' : d.length = (k' + 2) * prodList (m :: s3) := hd
          have hchlen : ∀ ch ∈ chunksN (k' + 2) (prodList (m :: s3)) d,
              ch.length = prodList (m :: s3) :=
            chunksN_mem_length _ _ d hd'
          rcases hrest : chunksN (k' + 1) (prodList (m :: s3))
              (d.drop (prodList (m :: s3))) with _ | ⟨c2, cs⟩
          · exact absurd hrest (chunksN_ne_nil _ _ _)
          · have hsplit : chunksN (k' + 2) (prodList (m :: s3)) d =
                d.take (prodList (m :: s3)) :: c2 :: cs := by
              rw [chunksN_cons, hrest]
            have hLHS : canonG ((k' + 2) :: m :: s3) d fin =
                canonG (m :: s3) (d.take (prodList (m :: s3)))
                    (m :: s3).length ++
                  joinBlocks (fun ch => canonG (m :: s3) ch (m :: s3).length)
                    (fun ch => canonG (m :: s3) ch fin) (c2 :: cs) := by
              rw [canonG_cons, hsplit]
              rfl
            show Buffer.fromStream ((m :: s3).length + 1)
                (canonG ((k' + 2) :: m :: s3) d fin ++ tail) = _
            rw [Buffer.fromStream, if_neg (by simp)]
            rw [hLHS, List.append_assoc]
            rw [fromStreamGo_grow (m :: s3) hvs2
              (d.take (prodList (m :: s3))) ((m :: s3).length + 1) _ []
              (hchlen (d.take (prodList (m :: s3)))
                (by rw [hsplit]; simp)) (by omega)]
            rw [fromStreamGo_topblocks (m :: s3) (by simp) fin hfin cs c2 1
              tail ([] ++ d.take (prodList (m :: s3)))
              (fun ch hch => hchlen ch (by rw [hsplit]; simp at hch ⊢; tauto))
              hp2
              (by simpa using
                hchlen (d.take (prodList (m :: s3))) (by rw [hsplit]; simp))]
            have hcs : cs.length = k' := by
              have h1 := chunksN_length (prodList (m :: s3)) (k' + 1)
                (d.drop (prodList (m :: s3)))
              rw [hrest] at h1
              simp at h1
              omega
            have hflat : [] ++ d.take (prodList (m :: s3)) ++
                (c2 :: cs).flatten = d := by
              have := chunksN_flatten (prodList (m :: s3)) (k' + 2) d hd'
              rw [hsplit] at this
              simpa using this
            rw [hflat, hcs]
            rw [show (1 : Nat) + k' + 1 = k' + 2 from by omega]
            rfl

/-- `Bufferize::run` on a stream of well-formed rank-`R` groups: every
group is reconstructed as its buffer, `Val` when the group closes exactly
at rank `R`, `ValStop` with the residual level otherwise. -/
theorem bufferizeGo_groups {α : Type} (R : Nat) (hR : 1 ≤ R) :
    ∀ (gs : List (List Nat × List α × Nat)) (fuel : Nat),
      (∀ g ∈ gs, goodGroup R g = true) →
      (canonGroups R gs).length < fuel →
      bufferizeGo R fuel (canonGroups R gs) = .ok (bufferElems gs) := by
  intro gs
  induction gs with
  | nil =>
      intro fuel _ hfuel
      cases fuel with
      | zero => omega
      | succ fuel =>
          have hfs : Buffer.fromStream R ([] : List (Elem α)) =
              .error .finished := by
            rw [Buffer.fromStream, if_neg (by omega)]
            rfl
          show bufferizeGo R (fuel + 1) [] = .ok []
          simp only [bufferizeGo, hfs]
  | cons g gs ih =>
      intro fuel hgood hfuel
      have hgg := hgood g (by simp)
      simp only [goodGroup, Bool.and_eq_true, decide_eq_true_eq] at hgg
      obtain ⟨⟨hvs, hlen⟩, hdata⟩ := hgg
      have hp : 1 ≤ prodList g.1 := prodList_pos _ (validShape_pos _ hvs)
      have hcne : canonG g.1 g.2.1 (R + g.2.2) ≠ [] :=
        canonG_ne_nil _ _ _ hdata hp
      have hstream : canonGroups R (g :: gs) =
          canonG g.1 g.2.1 (R + g.2.2) ++ canonGroups R gs := by
        simp [canonGroups]
      cases fuel with
      | zero => omega
      | succ fuel =>
          have hfuel2 : (canonGroups R gs).length < fuel := by
            rw [hstream] at hfuel
            have h1 : 1 ≤ (canonG g.1 g.2.1 (R + g.2.2)).length :=
              List.length_pos.mpr hcne
            simp only [List.length_append] at hfuel
            omega
          have hfs := fromStream_canon g.1 g.2.1 (R + g.2.2)
            (canonGroups R gs) hvs hdata (by omega)
          rw [hlen] at hfs
          rw [hstream]
          by_cases hres : g.2.2 = 0
          · have hfs2 : Buffer.fromStream R
                (canonG g.1 g.2.1 (R + g.2.2) ++ canonGroups R gs) =
                .ok ⟨⟨g.1, g.2.1⟩, none, canonGroups R gs⟩ := by
              rw [hfs, if_neg (by omega)]
            simp only [bufferizeGo, hfs2,
              ih fuel (fun h hg => hgood h (by simp [hg])) hfuel2]
            simp [bufferElems, hres]
          · have hfs2 : Buffer.fromStream R
                (canonG g.1 g.2.1 (R + g.2.2) ++ canonGroups R gs) =
                .ok ⟨⟨g.1, g.2.1⟩, some g.2.2, canonGroups R gs⟩ := by
              rw [hfs, if_pos (by omega),
                show R + g.2.2 - R = g.2.2 from by omega]
            simp only [bufferizeGo, hfs2,
              ih fuel (fun h hg => hgood h (by simp [hg])) hfuel2]
            simp [bufferElems, hres]

theorem setFinal_append {α : Type} (f : Nat) :
    ∀ (body : List (Elem α)) (e : Elem α),
      setFinal f (body ++ [e]) = body ++ [mkElem (elemVal e) f] := by
  intro body
  induction body with
  | nil => intro e; rfl
  | cons e1 body ih =>
      intro e
      cases body with
      | nil => rfl
      | cons e2 body2 =>
          show e1 :: setFinal f ((e2 :: body2) ++ [e]) = _
          rw [ih e]
          rfl

theorem setFinal_canonG {α : Type} (s : List Nat) (c : List α)
    (f fin : Nat) (hc : c.length = prodList s) (hp : 1 ≤ prodList s) :
    setFinal f (canonG s c fin) = canonG s c f := by
  obtain ⟨body, lastx, hfin, hpay, hints⟩ := canonG_split s c hc hp
  rw [hfin fin, hfin f, setFinal_append, elemVal_mkElem]

theorem map_raise_canonG {α : Type} (s : List Nat) (d : List α) (lev : Nat)
    (hd : d.length = prodList s) (hp : 1 ≤ prodList s) (hs1 : 1 ≤ s.length) :
    (canonG s d s.length).map (fun e =>
      match e with
      | .val tile => Elem.val tile
      | .valStop tile stop_lev =>
          Elem.valStop tile
            (if stop_lev = s.length then stop_lev + lev else stop_lev)) =
      canonG s d (s.length + lev) := by
  obtain ⟨body, lastx, hfin, hpay, hints⟩ := canonG_split s d hd hp
  rw [hfin s.length, hfin (s.length + lev), List.map_append]
  have hbody : ∀ b : List (Elem α),
      (∀ e ∈ b, (∃ x, e = Elem.val x) ∨
        ∃ x st, e = Elem.valStop x st ∧ 1 ≤ st ∧ st + 1 ≤ s.length) →
      b.map (fun e =>
        match e with
        | .val tile => Elem.val tile
        | .valStop tile stop_lev =>
            Elem.valStop tile
              (if stop_lev = s.length then stop_lev + lev
                else stop_lev)) = b := by
    intro b
    induction b with
    | nil => intro _; rfl
    | cons e b ihb =>
        intro hb
        rw [List.map_cons, ihb (fun e2 he => hb e2 (by simp [he]))]
        rcases hb e (by simp) with ⟨x, rfl⟩ | ⟨x, st, rfl, h1, h2⟩
        · rfl
        · show Elem.valStop x (if st = s.length then st + lev else st) ::
            b = _
          rw [if_neg (by omega)]
  rw [hbody body hints]
  congr 1
  rw [show mkElem lastx s.length = Elem.valStop lastx s.length from by
    rw [mkElem, if_neg (by omega)]]
  rw [show mkElem lastx (s.length + lev) =
    Elem.valStop lastx (s.length + lev) from by
    rw [mkElem, if_neg (by omega)]]
  simp

theorem outermostDiffIndex_cons_eq (i : Nat) (a b : List Nat) :
    outermostDiffIndex (i :: a) (i :: b) = outermostDiffIndex a b + 1 := by
  simp [outermostDiffIndex, List.findIdx_cons]

theorem outermostDiffIndex_cons_ne (i j : Nat) (a b : List Nat)
    (h : i ≠ j) : outermostDiffIndex (i :: a) (j :: b) = 0 := by
  have hb : (i != j) = true := by simpa using h
  simp [outermostDiffIndex, List.findIdx_cons, hb]

theorem toElemIterGo_shift {α : Type} (ndim i : Nat) :
    ∀ (rest : List (List Nat × α)) (ind : List Nat) (v : α),
      toElemIterGo (ndim + 1) (i :: ind, v)
          (rest.map (fun q => (i :: q.1, q.2))) =
        setFinal (ndim + 1) (toElemIterGo ndim (ind, v) rest) := by
  intro rest
  induction rest with
  | nil =>
      intro ind v
      show [Elem.valStop v (ndim + 1)] =
        setFinal (ndim + 1) [Elem.valStop v ndim]
      simp [setFinal, mkElem, elemVal]
  | cons q rest ihr =>
      rcases q with ⟨ind2, v2⟩
      intro ind v
      rcases htt : toElemIterGo ndim (ind2, v2) rest with _ | ⟨t0, ttail⟩
      · exact absurd htt (toElemIterGo_ne_nil ndim (ind2, v2) rest)
      · show (if ndim + 1 - outermostDiffIndex (i :: ind) (i :: ind2) - 1 = 0
              then Elem.val v
              else Elem.valStop v
                (ndim + 1 - outermostDiffIndex (i :: ind) (i :: ind2) - 1)) ::
            toElemIterGo (ndim + 1) (i :: ind2, v2)
              (rest.map (fun q => (i :: q.1, q.2))) =
          setFinal (ndim + 1)
            ((if ndim - outermostDiffIndex ind ind2 - 1 = 0 then Elem.val v
              else Elem.valStop v (ndim - outermostDiffIndex ind ind2 - 1)) ::
              toElemIterGo ndim (ind2, v2) rest)
        rw [outermostDiffIndex_cons_eq]
        rw [show ndim + 1 - (outermostDiffIndex ind ind2 + 1) - 1 =
          ndim - outermostDiffIndex ind ind2 - 1 from by omega]
        rw [ihr ind2 v2, htt]
        rfl

theorem toElemIterGo_append {α : Type} (ndim : Nat) :
    ∀ (rest1 : List (List Nat × α)) (p l1 q : List Nat × α)
      (rest2 : List (List Nat × α)),
      (p :: rest1).getLast? = some l1 →
      toElemIterGo ndim p (rest1 ++ q :: rest2) =
        setFinal (ndim - outermostDiffIndex l1.1 q.1 - 1)
            (toElemIterGo ndim p rest1) ++ toElemIterGo ndim q rest2 := by
  intro rest1
  induction rest1 with
  | nil =>
      intro p l1 q rest2 hlast
      obtain rfl : p = l1 := by simpa using hlast
      rcases p with ⟨ind, v⟩
      rcases q with ⟨ind2, v2⟩
      show (if ndim - outermostDiffIndex ind ind2 - 1 = 0 then Elem.val v
          else Elem.valStop v (ndim - outermostDiffIndex ind ind2 - 1)) ::
          toElemIterGo ndim (ind2, v2) rest2 =
        setFinal (ndim - outermostDiffIndex ind ind2 - 1)
            [Elem.valStop v ndim] ++ toElemIterGo ndim (ind2, v2) rest2
      rw [show setFinal (ndim - outermostDiffIndex ind ind2 - 1)
          [Elem.valStop v ndim] =
          [mkElem v (ndim - outermostDiffIndex ind ind2 - 1)] from rfl]
      rw [mkElem]
      rfl
  | cons r rest1 ihr =>
      rcases r with ⟨ind2, v2⟩
      intro p l1 q rest2 hlast
      rcases p with ⟨ind, v⟩
      have hlast2 : ((ind2, v2) :: rest1).getLast? = some l1 := by
        simpa using hlast
      rcases htt : toElemIterGo ndim (ind2, v2) rest1 with _ | ⟨t0, ttail⟩
      · exact absurd htt (toElemIterGo_ne_nil ndim (ind2, v2) rest1)
      · show (if ndim - outermostDiffIndex ind ind2 - 1 = 0 then Elem.val v
            else Elem.valStop v (ndim - outermostDiffIndex ind ind2 - 1)) ::
            toElemIterGo ndim (ind2, v2) (rest1 ++ q :: rest2) =
          setFinal (ndim - outermostDiffIndex l1.1 q.1 - 1)
              ((if ndim - outermostDiffIndex ind ind2 - 1 = 0 then Elem.val v
                else Elem.valStop v
                  (ndim - outermostDiffIndex ind ind2 - 1)) ::
                toElemIterGo ndim (ind2, v2) rest1) ++
            toElemIterGo ndim q rest2
        rw [ihr (ind2, v2) l1 q rest2 hlast2, htt]
        rfl

theorem canonG_rank1_cons {α : Type} (k : Nat) (v : α) (rest : List α)
    (fin : Nat) :
    canonG [k + 1 + 1] (v :: rest) fin =
      Elem.val v :: canonG [k + 1] rest fin := rfl

theorem toElemIterGo_base {α : Type} :
    ∀ (c : List α) (i : Nat) (v : α),
      toElemIterGo 1 ([i], v)
          (((List.range' (i + 1) c.length).map (fun j => [j])).zip c) =
        canonG [c.length + 1] (v :: c) 1 := by
  intro c
  induction c with
  | nil => intro i v; rfl
  | cons w c ihc =>
      intro i v
      show toElemIterGo 1 ([i], v)
          (((List.range' (i + 1) (c.length + 1)).map
            (fun j => [j])).zip (w :: c)) =
        canonG [c.length + 1 + 1] (v :: w :: c) 1
      rw [List.range'_succ, canonG_rank1_cons]
      show (if 1 - outermostDiffIndex [i] [i + 1] - 1 = 0 then Elem.val v
          else Elem.valStop v (1 - outermostDiffIndex [i] [i + 1] - 1)) ::
          toElemIterGo 1 ([i + 1], w)
            (((List.range' (i + 1 + 1) c.length).map (fun j => [j])).zip c) =
        Elem.val v :: canonG [c.length + 1] (w :: c) 1
      rw [outermostDiffIndex_cons_ne i (i + 1) [] [] (by omega)]
      rw [ihc (i + 1) w]
      norm_num

theorem flatMap_singleton_eq_map {α β : Type} (f : α → β) :
    ∀ l : List α, l.flatMap (fun x => [f x]) = l.map f := by
  intro l
  induction l with
  | nil => rfl
  | cons x l ih => simp [ih]

theorem multiIndices_singleton (n : Nat) :
    multiIndices [n] = (List.range n).map (fun i => [i]) := by
  show (List.range n).flatMap (fun i => (multiIndices []).map (i :: ·)) = _
  exact flatMap_singleton_eq_map (fun i => [i]) (List.range n)

theorem zip_blocks {α : Type} (s2 : List Nat) :
    ∀ (k i : Nat) (c : List α), c.length = k * prodList s2 →
      ((List.range' i k).flatMap
          (fun j => (multiIndices s2).map (j :: ·))).zip c =
        blockPairsFrom s2 i (chunksN k (prodList s2) c) := by
  intro k
  induction k with
  | zero =>
      intro i c hc
      have hc0 : c = [] := List.length_eq_zero.mp (by simpa using hc)
      subst hc0
      rfl
  | succ k ihk =>
      intro i c hc
      have hple : prodList s2 ≤ c.length := by
        rw [hc, Nat.succ_mul]; omega
      have h1 : ((multiIndices s2).map (i :: ·)).length =
          (c.take (prodList s2)).length := by
        simp [multiIndices_length, List.length_take]
        omega
      rw [List.range'_succ, List.flatMap_cons]
      calc ((multiIndices s2).map (i :: ·) ++
            (List.range' (i + 1) k).flatMap
              (fun j => (multiIndices s2).map (j :: ·))).zip c
          = ((multiIndices s2).map (i :: ·) ++
              (List.range' (i + 1) k).flatMap
                (fun j => (multiIndices s2).map (j :: ·))).zip
              (c.take (prodList s2) ++ c.drop (prodList s2)) := by
            rw [List.take_append_drop]
        _ = ((multiIndices s2).map (i :: ·)).zip (c.take (prodList s2)) ++
              ((List.range' (i + 1) k).flatMap
                (fun j => (multiIndices s2).map (j :: ·))).zip
                (c.drop (prodList s2)) := List.zip_append h1
        _ = ((multiIndices s2).zip (c.take (prodList s2))).map
              (fun q => (i :: q.1, q.2)) ++
              blockPairsFrom s2 (i + 1)
                (chunksN k (prodList s2) (c.drop (prodList s2))) := by
            rw [List.zip_map_left]
            rw [ihk (i + 1) (c.drop (prodList s2))
              (by rw [List.length_drop, hc, Nat.succ_mul]; omega)]
            rfl
        _ = blockPairsFrom s2 i (chunksN (k + 1) (prodList s2) c) := by
            rw [chunksN_cons]
            rfl

theorem zip_ne_nil {α : Type} (s2 : List Nat) (c : List α)
    (hc : c.length = prodList s2) (hp : 1 ≤ prodList s2) :
    ∃ q0 qrest, (multiIndices s2).zip c = q0 :: qrest := by
  rcases hz : (multiIndices s2).zip c with _ | ⟨q0, qrest⟩
  · exfalso
    have := congrArg List.length hz
    rw [List.length_zip, multiIndices_length, hc] at this
    simp at this
    omega
  · exact ⟨q0, qrest, rfl⟩

theorem toElemIter_blocks {α : Type} (s2 : List Nat)
    (hp2 : 1 ≤ prodList s2)
    (hinner : ∀ c : List α, c.length = prodList s2 →
      ∀ p0 rest0, (multiIndices s2).zip c = p0 :: rest0 →
        toElemIterGo s2.length p0 rest0 = canonG s2 c s2.length) :
    ∀ (cs : List (List α)) (c1 : List α) (i : Nat),
      (∀ ch ∈ c1 :: cs, ch.length = prodList s2) →
      ∀ p0 rest0,
        blockPairsFrom s2 i (c1 :: cs) = p0 :: rest0 →
        toElemIterGo (s2.length + 1) p0 rest0 =
          joinBlocks (fun c => canonG s2 c s2.length)
            (fun c => canonG s2 c (s2.length + 1)) (c1 :: cs) := by
  intro cs
  induction cs with
  | nil =>
      intro c1 i hch p0 rest0 hpairs
      obtain ⟨q0, qrest, hz⟩ := zip_ne_nil s2 c1 (hch c1 (by simp)) hp2
      have hpairs2 : blockPairsFrom s2 i [c1] =
          (i :: q0.1, q0.2) :: qrest.map (fun q => (i :: q.1, q.2)) := by
        show ((multiIndices s2).zip c1).map (fun q => (i :: q.1, q.2)) ++
          [] = _
        rw [hz, List.append_nil, List.map_cons]
      rw [hpairs2] at hpairs
      obtain ⟨rfl, rfl⟩ : p0 = (i :: q0.1, q0.2) ∧
          rest0 = qrest.map (fun q => (i :: q.1, q.2)) := by
        constructor <;> [exact (List.cons.injEq _ _ _ _ ▸ hpairs).1.symm;
          exact (List.cons.injEq _ _ _ _ ▸ hpairs).2.symm]
      rcases q0 with ⟨qind, qv⟩
      rw [toElemIterGo_shift s2.length i qrest qind qv]
      rw [hinner c1 (hch c1 (by simp)) (qind, qv) qrest hz]
      show setFinal (s2.length + 1) (canonG s2 c1 s2.length) =
        canonG s2 c1 (s2.length + 1)
      exact setFinal_canonG s2 c1 (s2.length + 1) s2.length
        (hch c1 (by simp)) hp2
  | cons c2 cs ihcs =>
      intro c1 i hch p0 rest0 hpairs
      obtain ⟨q0, qrest, hz⟩ := zip_ne_nil s2 c1 (hch c1 (by simp)) hp2
      obtain ⟨q2, qrest2, hz2⟩ := zip_ne_nil s2 c2
        (hch c2 (by simp)) hp2
      have hB2 : blockPairsFrom s2 (i + 1) (c2 :: cs) =
          ((i + 1) :: q2.1, q2.2) ::
            (qrest2.map (fun q => ((i + 1) :: q.1, q.2)) ++
              blockPairsFrom s2 (i + 1 + 1) cs) := by
        show ((multiIndices s2).zip c2).map
            (fun q => ((i + 1) :: q.1, q.2)) ++
          blockPairsFrom s2 (i + 1 + 1) cs = _
        rw [hz2, List.map_cons, List.cons_append]
      have hpairs2 : blockPairsFrom s2 i (c1 :: c2 :: cs) =
          (i :: q0.1, q0.2) ::
            (qrest.map (fun q => (i :: q.1, q.2)) ++
              (((i + 1) :: q2.1, q2.2) ::
                (qrest2.map (fun q => ((i + 1) :: q.1, q.2)) ++
                  blockPairsFrom s2 (i + 1 + 1) cs))) := by
        show ((multiIndices s2).zip c1).map (fun q => (i :: q.1, q.2)) ++
          blockPairsFrom s2 (i + 1) (c2 :: cs) = _
        rw [hz, hB2, List.map_cons, List.cons_append]
      rw [hpairs2] at hpairs
      obtain ⟨rfl, rfl⟩ : p0 = (i :: q0.1, q0.2) ∧
          rest0 = qrest.map (fun q => (i :: q.1, q.2)) ++
            (((i + 1) :: q2.1, q2.2) ::
              (qrest2.map (fun q => ((i + 1) :: q.1, q.2)) ++
                blockPairsFrom s2 (i + 1 + 1) cs)) := by
        constructor <;> [exact (List.cons.injEq _ _ _ _ ▸ hpairs).1.symm;
          exact (List.cons.injEq _ _ _ _ ▸ hpairs).2.symm]
      obtain ⟨z, hzlast⟩ : ∃ z, (q0 :: qrest).getLast? = some z := by
        rcases h : (q0 :: qrest).getLast? with _ | z
        · simp at h
        · exact ⟨z, rfl⟩
      have hlast : ((i :: q0.1, q0.2) ::
          qrest.map (fun q => (i :: q.1, q.2))).getLast? =
          some (i :: z.1, z.2) := by
        have h1 : ((q0 :: qrest).map
            (fun q => (i :: q.1, q.2))).getLast? =
            Option.map (fun q => (i :: q.1, q.2))
              (q0 :: qrest).getLast? := List.getLast?_map _ _
        rw [hzlast] at h1
        simpa using h1
      rw [toElemIterGo_append (s2.length + 1)
        (qrest.map (fun q => (i :: q.1, q.2))) (i :: q0.1, q0.2)
        (i :: z.1, z.2) ((i + 1) :: q2.1, q2.2)
        (qrest2.map (fun q => ((i + 1) :: q.1, q.2)) ++
          blockPairsFrom s2 (i + 1 + 1) cs) hlast]
      rcases q0 with ⟨qind, qv⟩
      rw [toElemIterGo_shift s2.length i qrest qind qv]
      rw [hinner c1 (hch c1 (by simp)) (qind, qv) qrest hz]
      rw [show ((i :: z.1, z.2) : List Nat × α).1 = i :: z.1 from rfl]
      rw [show (((i + 1) :: q2.1, q2.2) : List Nat × α).1 =
        (i + 1) :: q2.1 from rfl]
      rw [outermostDiffIndex_cons_ne i (i + 1) z.1 q2.1 (by omega)]
      rw [show s2.length + 1 - 0 - 1 = s2.length from by omega]
      rw [setFinal_canonG s2 c1 (s2.length + 1) s2.length
        (hch c1 (by simp)) hp2]
      rw [setFinal_canonG s2 c1 s2.length (s2.length + 1)
        (hch c1 (by simp)) hp2]
      rw [ihcs c2 (i + 1)
        (fun ch hch2 => hch ch (by simp at hch2 ⊢; tauto))
        ((i + 1) :: q2.1, q2.2)
        (qrest2.map (fun q => ((i + 1) :: q.1, q.2)) ++
          blockPairsFrom s2 (i + 1 + 1) cs) hB2]
      rfl

theorem toElemIterGo_canon {α : Type} :
    ∀ (s : List Nat), validShape s = true →
    ∀ (c : List α), c.length = prodList s →
    ∀ (p0 : List Nat × α) (rest0 : List (List Nat × α)),
      (multiIndices s).zip c = p0 :: rest0 →
      toElemIterGo s.length p0 rest0 = canonG s c s.length := by
  intro s
  induction s with
  | nil => intro h; simp [validShape] at h
  | cons n s2 ih =>
      cases s2 with
      | nil =>
          intro hvs c hc p0 rest0 hz
          have hn : 1 ≤ n := by simpa [validShape] using hvs
          have hcn : c.length = n := by simpa [prodList] using hc
          rw [multiIndices_singleton, List.range_eq_range'] at hz
          obtain ⟨m, rfl⟩ : ∃ m, n = m + 1 := ⟨n - 1, by omega⟩
          rcases c with _ | ⟨v, c2⟩
          · simp at hcn
          · have hc2 : c2.length = m := by simpa using hcn
            rw [List.range'_succ, List.map_cons, List.zip_cons_cons] at hz
            obtain ⟨rfl, rfl⟩ : p0 = ([0], v) ∧
                rest0 = ((List.range' (0 + 1) m).map
                  (fun i => [i])).zip c2 := by
              constructor <;>
                [exact (List.cons.injEq _ _ _ _ ▸ hz).1.symm;
                  exact (List.cons.injEq _ _ _ _ ▸ hz).2.symm]
            have hb := toElemIterGo_base c2 0 v
            rw [hc2] at hb
            show toElemIterGo 1 ([0], v)
              (((List.range' (0 + 1) m).map (fun i => [i])).zip c2) =
              canonG [m + 1] (v :: c2) 1
            exact hb
      | cons n2 s3 =>
          intro hvs c hc p0 rest0 hz
          obtain ⟨hn2, hvs2⟩ := validShape_tail n (n2 :: s3) hvs (by simp)
          have hp2 : 1 ≤ prodList (n2 :: s3) :=
            prodList_pos _ (validShape_pos _ hvs2)
          have hz2 : blockPairsFrom (n2 :: s3) 0
              (chunksN n (prodList (n2 :: s3)) c) = p0 :: rest0 := by
            rw [← zip_blocks (n2 :: s3) n 0 c hc, ← hz]
            rw [show multiIndices (n :: n2 :: s3) =
              (List.range' 0 n).flatMap
                (fun j => (multiIndices (n2 :: s3)).map (j :: ·)) from by
              rw [← List.range_eq_range']
              rfl]
          obtain ⟨k', rfl⟩ : ∃ k', n = k' + 2 := ⟨n - 2, by omega⟩
          have hchl : ∀ ch ∈ chunksN (k' + 2) (prodList (n2 :: s3)) c,
              ch.length = prodList (n2 :: s3) :=
            chunksN_mem_length _ _ c hc
          rw [chunksN_cons] at hz2 hchl
          have hmain := toElemIter_blocks (n2 :: s3) hp2 (ih hvs2)
            (chunksN (k' + 1) (prodList (n2 :: s3))
              (c.drop (prodList (n2 :: s3))))
            (c.take (prodList (n2 :: s3))) 0 hchl p0 rest0 hz2
          show toElemIterGo ((n2 :: s3).length + 1) p0 rest0 =
            canonG ((k' + 2) :: n2 :: s3) c ((k' + 2) :: n2 :: s3).length
          rw [hmain, canonG_cons, chunksN_cons]
          rfl

theorem validShape_prod_one (s : List Nat) (hvs : validShape s = true)
    (hp : prodList s = 1) : s = [1] := by
  cases s with
  | nil => simp [validShape] at hvs
  | cons n s2 =>
      cases s2 with
      | nil =>
          have h1 : prodList [n] = n := by simp [prodList]
          have h2 : n = 1 := by omega
          rw [h2]
      | cons m s3 =>
          obtain ⟨hn2, hvs2⟩ := validShape_tail n (m :: s3) hvs (by simp)
          have hp2 : 1 ≤ prodList (m :: s3) :=
            prodList_pos _ (validShape_pos _ hvs2)
          have hmul : prodList (n :: m :: s3) = n * prodList (m :: s3) := rfl
          have h3 : 2 * 1 ≤ n * prodList (m :: s3) := Nat.mul_le_mul hn2 hp2
          rw [hmul] at hp
          omega

/-- `Buffer::to_elem_iter` on a buffer whose shape is valid and matches
its data emits exactly the canonical stop-token stream of that array. -/
theorem toElemIter_canon {α : Type} (s : List Nat) (d : List α)
    (hvs : validShape s = true) (hd : d.length = prodList s) :
    Buffer.toElemIter ⟨s, d⟩ = canonStream s d := by
  have hp : 1 ≤ prodList s := prodList_pos _ (validShape_pos _ hvs)
  obtain ⟨q0, qrest, hz⟩ := zip_ne_nil s d hd hp
  rw [show Buffer.toElemIter (⟨s, d⟩ : Buffer α) =
    (match (multiIndices s).zip d with
      | [] => []
      | [(_, v)] => [Elem.valStop v 1]
      | p :: rest => toElemIterGo s.length p rest : List (Elem α))
    from rfl]
  rw [hz]
  cases qrest with
  | nil =>
      have hlen1 : prodList s = 1 := by
        have h1 := congrArg List.length hz
        rw [List.length_zip, multiIndices_length, hd] at h1
        simpa using h1
      have hs1 : s = [1] := validShape_prod_one s hvs hlen1
      subst hs1
      rcases d with _ | ⟨x, d2⟩
      · simp [prodList] at hd
      · rcases d2 with _ | ⟨y, d3⟩
        · show [Elem.valStop q0.2 1] = canonStream [1] [x]
          have hq : q0.2 = x := by
            have : (multiIndices [1]).zip [x] = [([0], x)] := rfl
            rw [this] at hz
            rw [show q0 = ([0], x) from
              ((List.cons.injEq _ _ _ _ ▸ hz).1).symm]
          rw [hq]
          rfl
        · exfalso
          simp [prodList] at hd
  | cons q1 qrest2 =>
      have hmain := toElemIterGo_canon s hvs d hd q0 (q1 :: qrest2) hz
      show toElemIterGo s.length q0 (q1 :: qrest2) = canonStream s d
      rw [hmain]
      rfl

/-- `Streamify::run` with empty `repeat_factor` on the buffer elements of
well-formed groups emits each group's canonical stream again, raising the
final rank-level stop by the residual carried on `ValStop` buffers. -/
theorem streamifyRun_groups {α : Type} (R : Nat) (hR : 1 ≤ R)
    (gs : List (List Nat × List α × Nat))
    (hgood : ∀ g ∈ gs, goodGroup R g = true) :
    streamifyRun [] R (bufferElems gs) = canonGroups R gs := by
  induction gs with
  | nil => rfl
  | cons g gs ih =>
      have hgg := hgood g (by simp)
      simp only [goodGroup, Bool.and_eq_true, decide_eq_true_eq] at hgg
      obtain ⟨⟨hvs, hlen⟩, hdata⟩ := hgg
      have hp : 1 ≤ prodList g.1 := prodList_pos _ (validShape_pos _ hvs)
      have hs1 : 1 ≤ g.1.length := by
        cases h : g.1 with
        | nil => rw [h] at hvs; simp [validShape] at hvs
        | cons a l => simp [h]
      have hcons : streamifyRun [] R (bufferElems (g :: gs)) =
          streamifyElem [] R
              (if g.2.2 = 0 then Elem.val ⟨g.1, g.2.1⟩
                else Elem.valStop ⟨g.1, g.2.1⟩ g.2.2) ++
            streamifyRun [] R (bufferElems gs) := by
        simp [streamifyRun, bufferElems]
      rw [hcons, ih (fun h hg => hgood h (by simp [hg]))]
      have hgroup : canonGroups R (g :: gs) =
          canonG g.1 g.2.1 (R + g.2.2) ++ canonGroups R gs := by
        simp [canonGroups]
      rw [hgroup]
      congr 1
      by_cases hres : g.2.2 = 0
      · rw [if_pos hres]
        rw [show streamifyElem [] R
            (Elem.val (⟨g.1, g.2.1⟩ : Buffer α)) =
            (⟨g.1, g.2.1⟩ : Buffer α).toElemIter from by
          simp [streamifyElem]]
        rw [toElemIter_canon g.1 g.2.1 hvs hdata, hres]
        show canonStream g.1 g.2.1 = canonG g.1 g.2.1 R
        rw [← hlen]
        rfl
      · rw [if_neg hres]
        rw [show streamifyElem [] R
            (Elem.valStop (⟨g.1, g.2.1⟩ : Buffer α) g.2.2) =
            (⟨g.1, g.2.1⟩ : Buffer α).toElemIter.map (fun e =>
              match e with
              | .val tile => Elem.val tile
              | .valStop tile stop_lev =>
                  Elem.valStop tile
                    (if stop_lev = R then stop_lev + g.2.2
                      else stop_lev)) from by
          simp [streamifyElem]]
        rw [toElemIter_canon g.1 g.2.1 hvs hdata]
        rw [show canonStream g.1 g.2.1 =
          canonG g.1 g.2.1 g.1.length from rfl]
        rw [← hlen]
        exact map_raise_canonG g.1 g.2.1 g.2.2 hdata hp hs1

/-- C1 (amended): for every rank `R ≥ 1` and every input stream that is a
concatenation of canonical valid-shape rank-`R` groups (each closing at
level `R + res` for its residual `res`), feeding the stream through
`Bufferize(rank = R)` and then `Streamify` with **empty** `repeat_factor`
yields exactly the original element sequence with the original stop-level
structure.  (With a non-empty `repeat_factor` the round trip fails; see
the counterexample.) -/
theorem bufferize_streamify_roundtrip {α : Type} (R : Nat)
    (gs : List (List Nat × List α × Nat)) (hR : 1 ≤ R)
    (hgood : ∀ g ∈ gs, goodGroup R g = true) :
    (bufferizeRun R (canonGroups R gs)).map (streamifyRun [] R) =
      .ok (canonGroups R gs) := by
  rw [show bufferizeRun R (canonGroups R gs) =
    bufferizeGo R ((canonGroups R gs).length + 1) (canonGroups R gs)
    from rfl]
  rw [bufferizeGo_groups R hR gs ((canonGroups R gs).length + 1) hgood
    (by omega)]
  rw [show Except.map (streamifyRun ([] : List Nat) R)
    (Except.ok (bufferElems gs)) =
    Except.ok (streamifyRun [] R (bufferElems gs)) from rfl]
  rw [streamifyRun_groups R hR gs hgood]

/-- C1, witness: a rank-2 stream of two groups — a 2×3 group closing at
level 2 and a 2×2 group closing at level 3 — survives the round trip. -/
theorem bufferize_streamify_roundtrip_witness :
    ((1 : Nat) ≤ 2 ∧
      (∀ g ∈ ([([2, 3], [0, 1, 2, 3, 4, 5], 0),
          ([2, 2], [9, 8, 7, 6], 1)] :
            List (List Nat × List Nat × Nat)),
        goodGroup 2 g = true)) ∧
    (bufferizeRun 2 (canonGroups 2
        [([2, 3], [0, 1, 2, 3, 4, 5], 0),
          ([2, 2], [9, 8, 7, 6], 1)])).map (streamifyRun [] 2) =
      .ok (canonGroups 2
        [([2, 3], [0, 1, 2, 3, 4, 5], 0), ([2, 2], [9, 8, 7, 6], 1)]) :=
  ⟨⟨by decide, by decide⟩,
    bufferize_streamify_roundtrip 2
      [([2, 3], [0, 1, 2, 3, 4, 5], 0), ([2, 2], [9, 8, 7, 6], 1)]
      (by decide) (by decide)⟩

/-- C1, counterexample: the claim fails for non-empty `repeat_factor`.
Bufferize(rank = 1) followed by Streamify(repeat_factor = [2], rank = 1)
maps the one-group stream `[ValStop(0, 1)]` to
`[ValStop(0, 1), ValStop(0, 2)]`, not back to itself: the buffer is
replayed once per repeat count and the replays' stop levels are raised. -/
theorem bufferize_streamify_repeat_counterexample :
    (bufferizeRun 1 [Elem.valStop (0 : Nat) 1]).map (streamifyRun [2] 1) =
      .ok [Elem.valStop (0 : Nat) 1, Elem.valStop 0 2] ∧
    ([Elem.valStop (0 : Nat) 1, Elem.valStop 0 2] ≠
      [Elem.valStop (0 : Nat) 1]) :=
  ⟨rfl, by decide⟩

theorem emPassGo_keep {α : Type} (T t j0 : Nat) :
    ∀ (l : List (Nat × List (Nat × α))) (p c : Nat → Bool),
      (∀ q ∈ l, ∀ th x r, q.2 = (th, x) :: r → t ≤ th) →
      (emPassGo T l p c (some (j0, t))).2.2 = some (j0, t) := by
  intro l
  induction l with
  | nil => intro p c _; rfl
  | cons q l ih =>
      rcases q with ⟨i, s⟩
      intro p c hvis
      by_cases hpi : p i = true
      · simp only [emPassGo, if_pos hpi]
        exact ih p c (fun q hq => hvis q (by simp [hq]))
      · rcases hs : s with _ | ⟨⟨th, x⟩, r⟩
        · simp only [emPassGo, if_neg hpi]
          exact ih _ _ (fun q hq => hvis q (by simp [hq]))
        · have hth2 : t ≤ th := hvis (i, (th, x) :: r) (by simp [hs]) th x r rfl
          by_cases hth : th ≤ T
          · simp only [emPassGo, if_neg hpi, if_pos hth]
            rw [if_neg (by omega)]
            exact ih _ _ (fun q hq => hvis q (by simp [hq]))
          · simp only [emPassGo, if_neg hpi, if_neg hth]
            exact ih _ _ (fun q hq => hvis q (by simp [hq]))

theorem emPassGo_quiet {α : Type} (T : Nat) :
    ∀ (l : List (Nat × List (Nat × α))) (p c : Nat → Bool),
      (∀ q ∈ l, ∀ th x r, q.2 = (th, x) :: r → T < th) →
      (emPassGo T l p c none).2.2 = none ∧
      (∀ j, (∀ s, (j, s) ∈ l → s ≠ []) → p j = false →
        (emPassGo T l p c none).1 j = false) ∧
      (∀ j, (∀ s, (j, s) ∈ l → s ≠ []) → c j = false →
        (emPassGo T l p c none).2.1 j = false) := by
  intro l
  induction l with
  | nil => intro p c _; exact ⟨rfl, fun _ _ h => h, fun _ _ h => h⟩
  | cons q l ih =>
      rcases q with ⟨i, s⟩
      intro p c hfut
      by_cases hpi : p i = true
      · simp only [emPassGo, if_pos hpi]
        obtain ⟨h1, h2, h3⟩ := ih p c (fun q hq => hfut q (by simp [hq]))
        exact ⟨h1,
          fun j hj hpj => h2 j (fun s2 hs2 => hj s2 (by simp [hs2])) hpj,
          fun j hj hcj => h3 j (fun s2 hs2 => hj s2 (by simp [hs2])) hcj⟩
      · rcases hs : s with _ | ⟨⟨th, x⟩, r⟩
        · simp only [emPassGo, if_neg hpi]
          obtain ⟨h1, h2, h3⟩ := ih (updT p i) (updT c i)
            (fun q hq => hfut q (by simp [hq]))
          refine ⟨h1, ?_, ?_⟩
          · intro j hj hpj
            have hji : j ≠ i := by
              intro hji
              subst hji
              exact (hj [] (by simp [hs])) rfl
            exact h2 j (fun s2 hs2 => hj s2 (by simp [hs2]))
              (by simp [updT, hji, hpj])
          · intro j hj hcj
            have hji : j ≠ i := by
              intro hji
              subst hji
              exact (hj [] (by simp [hs])) rfl
            exact h3 j (fun s2 hs2 => hj s2 (by simp [hs2]))
              (by simp [updT, hji, hcj])
        · have hfar : T < th := hfut (i, (th, x) :: r) (by simp [hs]) th x r rfl
          simp only [emPassGo, if_neg hpi, if_neg (by omega : ¬ th ≤ T)]
          obtain ⟨h1, h2, h3⟩ := ih p c (fun q hq => hfut q (by simp [hq]))
          exact ⟨h1,
            fun j hj hpj => h2 j (fun s2 hs2 => hj s2 (by simp [hs2])) hpj,
            fun j hj hcj => h3 j (fun s2 hs2 => hj s2 (by simp [hs2])) hcj⟩

theorem emPassGo_found {α : Type} (T t idx : Nat) (hT : t ≤ T) :
    ∀ (l : List (Nat × List (Nat × α))) (p c : Nat → Bool)
      (e0 : Option (Nat × Nat)),
      (e0 = none ∨ ∃ j0 et, e0 = some (j0, et) ∧ t < et) →
      List.Pairwise (fun a b => a.1 < b.1) l →
      (∀ q ∈ l, ∀ th x r, q.2 = (th, x) :: r → t ≤ th) →
      (∃ s, (idx, s) ∈ l ∧ ∃ x r, s = (t, x) :: r) →
      (∀ q ∈ l, q.1 < idx → ∀ th x r, q.2 = (th, x) :: r → t < th) →
      (∀ q ∈ l, q.2 ≠ [] → p q.1 = false) →
      (emPassGo T l p c e0).2.2 = some (idx, t) := by
  intro l
  induction l with
  | nil =>
      intro p c e0 _ _ _ hmem _ _
      obtain ⟨s, hs, _⟩ := hmem
      simp at hs
  | cons q l ih =>
      rcases q with ⟨i, s⟩
      intro p c e0 he0 hsort hvis hmem hlow hp
      obtain ⟨hfst, hsort2⟩ := List.pairwise_cons.mp hsort
      by_cases hpi : p i = true
      · simp only [emPassGo, if_pos hpi]
        obtain ⟨sidx, hin, x2, r2, hsidx⟩ := hmem
        rcases List.mem_cons.mp hin with heq | hin2
        · exfalso
          have h2 : sidx = s := congrArg Prod.snd heq
          have h3 : p i = false := hp (i, s) (by simp)
            (by rw [← h2, hsidx]; simp)
          rw [h3] at hpi
          simp at hpi
        · exact ih p c e0 he0 hsort2 (fun q hq => hvis q (by simp [hq]))
            ⟨sidx, hin2, x2, r2, hsidx⟩
            (fun q hq => hlow q (by simp [hq]))
            (fun q hq => hp q (by simp [hq]))
      · rcases hs : s with _ | ⟨⟨th, x⟩, r⟩
        · simp only [emPassGo, if_neg hpi]
          obtain ⟨sidx, hin, x2, r2, hsidx⟩ := hmem
          rcases List.mem_cons.mp hin with heq | hin2
          · exfalso
            have h2 : sidx = s := congrArg Prod.snd heq
            rw [hs] at h2
            rw [h2] at hsidx
            simp at hsidx
          · refine ih (updT p i) (updT c i) e0 he0 hsort2
              (fun q hq => hvis q (by simp [hq]))
              ⟨sidx, hin2, x2, r2, hsidx⟩
              (fun q hq => hlow q (by simp [hq]))
              ?_
            intro q hq hqne
            have hqi : q.1 ≠ i := by
              have := hfst q hq
              omega
            rw [show updT p i q.1 = p q.1 from by simp [updT, hqi]]
            exact hp q (by simp [hq]) hqne
        · by_cases hth : th ≤ T
          · have hp2 : ∀ q ∈ l, q.2 ≠ [] → updT p i q.1 = false := by
              intro q hq hqne
              have hqi : q.1 ≠ i := by
                have := hfst q hq
                omega
              rw [show updT p i q.1 = p q.1 from by simp [updT, hqi]]
              exact hp q (by simp [hq]) hqne
            by_cases hi : i = idx
            · subst hi
              obtain ⟨sidx, hin, x2, r2, hsidx⟩ := hmem
              have hth_t : th = t := by
                rcases List.mem_cons.mp hin with heq | hin2
                · have h2 : sidx = s := congrArg Prod.snd heq
                  rw [hs] at h2
                  rw [hsidx] at h2
                  have h3 := congrArg (fun l2 => l2.head?.map Prod.fst) h2
                  simp at h3
                  omega
                · exfalso
                  have h3 := hfst (i, sidx) hin2
                  simp at h3
              subst hth_t
              simp only [emPassGo, if_neg hpi, if_pos hth]
              rcases he0 with rfl | ⟨j0, et, rfl, hlt⟩
              · exact emPassGo_keep T th i l (updT p i) c
                  (fun q hq => hvis q (by simp [hq]))
              · show (emPassGo T l (updT p i) c
                  (if th < et then some (i, th)
                    else some (j0, et))).2.2 = some (i, th)
                rw [if_pos hlt]
                exact emPassGo_keep T th i l (updT p i) c
                  (fun q hq => hvis q (by simp [hq]))
            · obtain ⟨sidx, hin, x2, r2, hsidx⟩ := hmem
              rcases List.mem_cons.mp hin with heq | hin2
              · exfalso
                exact hi (congrArg Prod.fst heq).symm
              · have hiidx : i < idx := by
                  have h3 := hfst (idx, sidx) hin2
                  simpa using h3
                have htht : t < th := hlow (i, (th, x) :: r) (by simp [hs])
                  (by simpa using hiidx) th x r rfl
                simp only [emPassGo, if_neg hpi, if_pos hth]
                rcases he0 with rfl | ⟨j0, et, rfl, hlt⟩
                · exact ih (updT p i) c (some (i, th))
                    (Or.inr ⟨i, th, rfl, htht⟩) hsort2
                    (fun q hq => hvis q (by simp [hq]))
                    ⟨sidx, hin2, x2, r2, hsidx⟩
                    (fun q hq => hlow q (by simp [hq])) hp2
                · show (emPassGo T l (updT p i) c
                    (if th < et then some (i, th)
                      else some (j0, et))).2.2 = some (idx, t)
                  by_cases h2 : th < et
                  · rw [if_pos h2]
                    exact ih (updT p i) c (some (i, th))
                      (Or.inr ⟨i, th, rfl, htht⟩) hsort2
                      (fun q hq => hvis q (by simp [hq]))
                      ⟨sidx, hin2, x2, r2, hsidx⟩
                      (fun q hq => hlow q (by simp [hq])) hp2
                  · rw [if_neg h2]
                    exact ih (updT p i) c (some (j0, et))
                      (Or.inr ⟨j0, et, rfl, hlt⟩) hsort2
                      (fun q hq => hvis q (by simp [hq]))
                      ⟨sidx, hin2, x2, r2, hsidx⟩
                      (fun q hq => hlow q (by simp [hq])) hp2
          · simp only [emPassGo, if_neg hpi, if_neg hth]
            obtain ⟨sidx, hin, x2, r2, hsidx⟩ := hmem
            rcases List.mem_cons.mp hin with heq | hin2
            · exfalso
              have h2 : sidx = s := congrArg Prod.snd heq
              rw [hs] at h2
              rw [hsidx] at h2
              have h3 := congrArg (fun l2 => l2.head?.map Prod.fst) h2
              simp at h3
              omega
            · exact ih p c e0 he0 hsort2
                (fun q hq => hvis q (by simp [hq]))
                ⟨sidx, hin2, x2, r2, hsidx⟩
                (fun q hq => hlow q (by simp [hq]))
                (fun q hq => hp q (by simp [hq]))

theorem getEarliestGo_sel {α : Type} (streams : List (List (Nat × α)))
    (t idx : Nat) (hn : idx < streams.length)
    (hidx : ∃ x r, streams.getD idx [] = (t, x) :: r)
    (hmin : ∀ j, j < streams.length → ∀ th x r,
      streams.getD j [] = (th, x) :: r → t ≤ th)
    (hlow : ∀ j, j < streams.length → j < idx → ∀ th x r,
      streams.getD j [] = (th, x) :: r → t < th) :
    ∀ (fuel T : Nat) (p c : Nat → Bool),
      1 ≤ fuel → t < T + fuel →
      (∀ j, j < streams.length → streams.getD j [] ≠ [] → p j = false) →
      (∀ j, j < streams.length → streams.getD j [] ≠ [] → c j = false) →
      getEarliestGo streams fuel T p c none = some (max T t, idx) := by
  have henum_mem : ∀ q ∈ emEnum streams, q.1 < streams.length ∧
      q.2 = streams.getD q.1 [] := by
    intro q hq
    rw [emEnum] at hq
    obtain ⟨i, hi, rfl⟩ := List.mem_map.mp hq
    exact ⟨List.mem_range.mp hi, rfl⟩
  have hsort : List.Pairwise (fun a b => a.1 < b.1) (emEnum streams) := by
    rw [emEnum]
    exact List.pairwise_map.mpr
      (List.Pairwise.imp (fun h => h)
        (List.pairwise_lt_range streams.length))
  have hidx_ne : streams.getD idx [] ≠ [] := by
    obtain ⟨x, r, hx⟩ := hidx
    rw [hx]
    simp
  intro fuel
  induction fuel with
  | zero => intro T p c h1 _ _ _; omega
  | succ fuel ih =>
      intro T p c h1 h2 hp hc
      by_cases hTt : t ≤ T
      · rcases hpass : emPassGo T (emEnum streams) p c none with ⟨p2, c2, e2⟩
        have he2 : e2 = some (idx, t) := by
          have h := emPassGo_found T t idx hTt (emEnum streams) p c none
            (Or.inl rfl) hsort
            (fun q hq th x r hq2 => by
              obtain ⟨hql, hqe⟩ := henum_mem q hq
              exact hmin q.1 hql th x r (by rw [← hqe]; exact hq2))
            (by
              obtain ⟨x, r, hx⟩ := hidx
              exact ⟨streams.getD idx [],
                List.mem_map.mpr ⟨idx, List.mem_range.mpr hn, rfl⟩,
                x, r, hx⟩)
            (fun q hq hql th x r hq2 => by
              obtain ⟨hqlen, hqe⟩ := henum_mem q hq
              exact hlow q.1 hqlen hql th x r (by rw [← hqe]; exact hq2))
            (fun q hq hqne => by
              obtain ⟨hqlen, hqe⟩ := henum_mem q hq
              exact hp q.1 hqlen (by rw [← hqe]; exact hqne))
          rw [hpass] at h
          exact h
        subst he2
        simp only [getEarliestGo, hpass]
        rw [if_neg (by
          intro hcontra
          exact absurd hcontra.2 (by omega))]
        rw [Nat.max_eq_left hTt]
      · have hTt2 : T < t := by omega
        rcases hpass : emPassGo T (emEnum streams) p c none with ⟨p2, c2, e2⟩
        obtain ⟨h1e, h2p, h3c⟩ := emPassGo_quiet T (emEnum streams) p c
          (fun q hq th x r hq2 => by
            obtain ⟨hqlen, hqe⟩ := henum_mem q hq
            have := hmin q.1 hqlen th x r (by rw [← hqe]; exact hq2)
            omega)
        rw [hpass] at h1e h2p h3c
        have h1e2 : e2 = none := h1e
        subst h1e2
        simp only [getEarliestGo, hpass]
        have hcidx : c2 idx = false := h3c idx (fun s2 hs2 => by
            obtain ⟨hlen2, hqe⟩ := henum_mem (idx, s2) hs2
            simp only at hqe
            rw [hqe]
            exact hidx_ne) (hc idx hn hidx_ne)
        rw [if_pos (by
          rw [anyFalse]
          exact List.any_eq_true.mpr
            ⟨idx, List.mem_range.mpr hn, by simp [hcidx]⟩)]
        have hres := ih (T + 1) p2 c2 (by omega) (by omega)
          (fun j hj hne => h2p j (fun s2 hs2 => by
              obtain ⟨_, hqe⟩ := henum_mem (j, s2) hs2
              simp only at hqe
              rw [hqe]
              exact hne) (hp j hj hne))
          (fun j hj hne => h3c j (fun s2 hs2 => by
              obtain ⟨_, hqe⟩ := henum_mem (j, s2) hs2
              simp only at hqe
              rw [hqe]
              exact hne) (hc j hj hne))
        rw [hres]
        rw [show max (T + 1) t = max T t from by omega]

theorem drainGroup_spec {α : Type} (R : Nat) (hR : 1 ≤ R) :
    ∀ (body : List (Elem α)) (x : α) (rest : List (Elem α)),
      (∀ e ∈ body, (∃ y, e = Elem.val y) ∨
        ∃ y s, e = Elem.valStop y s ∧ s < R) →
      drainGroup R (body ++ [Elem.valStop x R] ++ rest) =
        some (body ++ [Elem.valStop x R], rest) := by
  intro body
  induction body with
  | nil =>
      intro x rest _
      show drainGroup R (Elem.valStop x R :: rest) = _
      simp [drainGroup]
  | cons e body ih =>
      intro x rest hb
      rcases hb e (by simp) with ⟨y, rfl⟩ | ⟨y, s, rfl, hs⟩
      · show drainGroup R
          (Elem.val y :: (body ++ [Elem.valStop x R] ++ rest)) = _
        simp only [drainGroup, if_neg (by omega : ¬ R = 0)]
        rw [ih x rest (fun e2 he => hb e2 (by simp [he]))]
        rfl
      · show drainGroup R
          (Elem.valStop y s :: (body ++ [Elem.valStop x R] ++ rest)) = _
        simp only [drainGroup, if_neg (by omega : ¬ s = R),
          if_neg (by omega : ¬ R < s)]
        rw [ih x rest (fun e2 he => hb e2 (by simp [he]))]
        rfl

/-- C9: one `EagerMerge::run` iteration selects the input stream whose
next available element has the earliest timestamp — advancing the local
clock and re-peeking until a head has arrived, so the chosen stream is
the true earliest — breaking timestamp ties by the lowest input-stream
index; it then emits the chosen index once on the selector output and
drains exactly one `input_rank`-bounded group from that stream into the
output. -/
theorem eager_merge_earliest {α : Type}
    (streams : List (List (Nat × Elem α))) (R t idx T0 fuel : Nat)
    (body : List (Elem α)) (lastx : α) (grest : List (Elem α))
    (hR : 1 ≤ R)
    (hn : idx < streams.length)
    (hhead : ∃ x r, streams.getD idx [] = (t, x) :: r)
    (hmin : ∀ j, j < streams.length → ∀ th x r,
      streams.getD j [] = (th, x) :: r → t ≤ th)
    (hlow : ∀ j, j < streams.length → j < idx → ∀ th x r,
      streams.getD j [] = (th, x) :: r → t < th)
    (hfuel : 1 ≤ fuel ∧ t < T0 + fuel)
    (hgrp : (streams.getD idx []).map Prod.snd =
      body ++ [Elem.valStop lastx R] ++ grest)
    (hbody : ∀ e ∈ body, (∃ y, e = Elem.val y) ∨
      ∃ y s, e = Elem.valStop y s ∧ s < R) :
    eagerMergeStep streams R T0 fuel =
      some (max T0 t, idx, body ++ [Elem.valStop lastx R]) := by
  have hsel : getEarliestInputIdx streams T0 fuel = some (max T0 t, idx) :=
    getEarliestGo_sel streams t idx hn hhead hmin hlow fuel T0
      (fun _ => false) (fun _ => false) hfuel.1 hfuel.2
      (fun _ _ _ => rfl) (fun _ _ _ => rfl)
  have hdrain := drainGroup_spec R hR body lastx grest hbody
  simp only [eagerMergeStep, hsel]
  rw [hgrp, hdrain]

/-- C9, witness: three inputs with head times 5, 3, 3 — index 1 wins the
tie against index 2, the earlier head at time 3 beats index 0, and one
rank-1 group is drained. -/
theorem eager_merge_earliest_witness :
    ((1 : Nat) ≤ 1 ∧
      (1 : Nat) < ([[(5, Elem.val 10), (6, Elem.valStop 11 1)],
        [(3, Elem.val 20), (4, Elem.valStop 21 1)],
        [(3, Elem.valStop 30 1)]] :
          List (List (Nat × Elem Nat))).length ∧
      ((1 : Nat) ≤ 4 ∧ (3 : Nat) < 0 + 4)) ∧
    eagerMergeStep
        ([[(5, Elem.val 10), (6, Elem.valStop 11 1)],
          [(3, Elem.val 20), (4, Elem.valStop 21 1)],
          [(3, Elem.valStop 30 1)]] : List (List (Nat × Elem Nat)))
        1 0 4 =
      some (max 0 3, 1, [Elem.val 20, Elem.valStop 21 1]) := by
  refine ⟨⟨by decide, by decide, by decide, by decide⟩, ?_⟩
  exact eager_merge_earliest
    [[(5, Elem.val 10), (6, Elem.valStop 11 1)],
      [(3, Elem.val 20), (4, Elem.valStop 21 1)],
      [(3, Elem.valStop 30 1)]]
    1 3 1 0 4 [Elem.val 20] 21 []
    (by decide) (by decide)
    ⟨Elem.val 20, [(4, Elem.valStop 21 1)], rfl⟩
    (by
      intro j hj th x r h
      have hj3 : j = 0 ∨ j = 1 ∨ j = 2 := by
        simp at hj
        omega
      rcases hj3 with rfl | rfl | rfl <;> simp at h <;> omega)
    (by
      intro j hj hji th x r h
      have hj0 : j = 0 := by omega
      subst hj0
      simp at h
      omega)
    ⟨by decide, by decide⟩
    rfl
    (by
      intro e he
      rcases List.mem_singleton.mp he with rfl
      exact Or.inl ⟨20, rfl⟩)

/-- C7, witness. -/
theorem binaryMap_stop_semantics_witness :
    ((1 : Nat) ≠ 2) ∧
    (binaryMapInvoke (fun _ _ _ _ => (7, Tile.mk [2, 2] 4 false)) 1024 true 5
        (.valStop (Tile.mk [2, 2] 4 true) 1) (.valStop (Tile.mk [1, 1] 4 true) 2) =
      .error "The two input streams' shape don't match!") := by
  constructor
  · decide
  · exact (binaryMap_stop_semantics (fun _ _ _ _ => (7, Tile.mk [2, 2] 4 false))
      1024 true 5 (Tile.mk [2, 2] 4 true) (Tile.mk [1, 1] 4 true) 0 1 2
      (by decide)).2.2.1

end StepPerf
